import Mathlib

/-!
Verification development for the expect.js repository's lexing/matching core.

Embedded components:
* `src/src/lex.js` — the grammar-driven, mode-switching tokenizer `lex`.
* `src/unnamed/part_000` — the functional token-pattern engine `fregex`.
* `src/src/lex-htmljs.js` — the html/js grammar's module-level state
  (`braceDepth`, `templateDepth`) and the `template`/`brace1`/`brace2` rules.

Source strings are modelled as `List Char`; JS tokens (strings decorated with
`type`, `mode`, `line`, `col` and optional `tokens` children) are modelled by
the `Token` inductive.  Rule functions of a grammar may read and write a
threaded state of type `γ` because the html/js grammar's rules close over
module-level counters; pure grammars use `γ := Unit`.
-/

/-- Number of newline characters in a list (JS `(token.match(/\n/g) || []).length`). -/
def countNl (l : List Char) : Nat := (l.filter (fun c => c == '\n')).length

/-- Index of the LAST occurrence of `c` in `l` (JS `token.lastIndexOf(c)`),
`none` when absent. -/
def lastIndexOf : List Char → Char → Option Nat
  | [], _ => none
  | a :: l, c =>
    match lastIndexOf l c with
    | some k => some (k + 1)
    | none => if a = c then some 0 else none

/-- Replace every occurrence of the character `c` by the chunk `rep`
(JS `String.replace(/c/g, rep)` for a single-character pattern). -/
def replCh (c : Char) (rep : List Char) : List Char → List Char
  | [] => []
  | a :: l => (if a = c then rep else [a]) ++ replCh c rep l

/-- Convenient literal conversion used only in concrete statements. -/
def chars (s : String) : List Char := s.toList

/-- The backtick character (written by code so the source file stays free of
raw backticks). -/
def backtickCh : Char := Char.ofNat 96

/-- Opening curly brace character. -/
def braceOpenCh : Char := Char.ofNat 123

/-- Closing curly brace character. -/
def braceCloseCh : Char := Char.ofNat 125

/-- A token produced by `lex` (`lex.js`): the matched text, the rule name that
produced it (`type` in JS, called `ty` here), the lexical mode recorded on the
token, the 1-based `line`/`col` of its first character, and — for composite
tokens produced by a mode push — the nested child tokens (empty for plain
tokens). -/
inductive Token where
  | mk (text : List Char) (ty : String) (mode : String) (line : Nat) (col : Nat)
      (children : List Token)

/-- The `text` of a token: the exact substring it consumed. -/
def Token.text : Token → List Char
  | .mk t _ _ _ _ _ => t

/-- The rule name that produced the token. -/
def Token.ty : Token → String
  | .mk _ ty _ _ _ _ => ty

/-- The mode recorded on the token. -/
def Token.mode : Token → String
  | .mk _ _ m _ _ _ => m

/-- 1-based line of the token's first character. -/
def Token.line : Token → Nat
  | .mk _ _ _ ln _ _ => ln

/-- 1-based column of the token's first character. -/
def Token.col : Token → Nat
  | .mk _ _ _ _ c _ => c

/-- Child tokens of a composite token (`tokens` property in JS); `[]` for
plain tokens. -/
def Token.children : Token → List Token
  | .mk _ _ _ _ _ ch => ch

/-- Concatenation of the texts of a token list (JS `tokens.join('')`). -/
def concatText : List Token → List Char
  | [] => []
  | t :: ts => t.text ++ concatText ts

/-- The error thrown by `lex` when no rule of the current mode matches
(`lex.js` lines 55-60): it carries the mode, position and a bounded, escaped
window of text around the offending offset. -/
structure LexError where
  mode : String
  line : Nat
  col : Nat
  context : List Char
deriving DecidableEq

/-- The warning sign (U+26A0 U+FE0F) spliced into the error context by
`lex.js`. -/
def warnChars : List Char := [Char.ofNat 0x26A0, Char.ofNat 0xFE0F]

/-- Escape carriage returns and newlines exactly as `lex.js` line 57 does
(`.replace(/\r/g,'\\r').replace(/\n/g,'\\n')`, two sequential passes). -/
def escapeRN (l : List Char) : List Char :=
  replCh '\n' ['\\', 'n'] (replCh '\r' ['\\', 'r'] l)

/-- Build the no-match error of `lex.js` lines 56-59: mode, line, col, and the
escaped window `code.slice(index-10, index) + warning + current.slice(0, 20)`. -/
def mkLexError (code : List Char) (mode : String) (line col index : Nat) : LexError :=
  ⟨mode, line, col,
    escapeRN (((code.take index).drop (index - 10)) ++ warnChars ++ ((code.drop index).take 20))⟩

/-- The `matchType` slot of the rule-scanning loop of `lex.js`: JS
`undefined`, a mode-name string, or the pop sentinel `-1`. -/
inductive MT where
  | undef
  | mode (m : String)
  | pop
deriving DecidableEq

/-- One grammar rule (`GrammarRule` in `lex.js`): a literal string (prefix
match), a regular expression (modelled abstractly as a function from the text
ahead to an optional matched string), or a match function receiving the
threaded state, the text ahead, the text behind and the tokens produced so
far, returning an optional `(match, directive)` plus the updated state. -/
inductive GRule (γ : Type) where
  | str (s : List Char)
  | regex (f : List Char → Option (List Char))
  | fn (f : γ → List Char → List Char → List Token → (Option (List Char × MT)) × γ)

/-- A grammar: modes in declaration order, each an ordered list of named
rules, each rule name carrying its list of alternatives (single rules are
normalised to one-element lists, as `lex.js` line 44 does). -/
abbrev Grammar (γ : Type) := List (String × List (String × List (GRule γ)))

/-- First declared mode (`Object.keys(grammar)[0]`), `""` for an empty
grammar. -/
def firstMode {γ : Type} : Grammar γ → String
  | [] => ""
  | p :: _ => p.1

/-- Rules of a mode (`grammar[mode]`); a missing mode yields no rules, exactly
as JS `for..in` over `undefined` iterates nothing. -/
def modeRules {γ : Type} (g : Grammar γ) (m : String) : List (String × List (GRule γ)) :=
  match g.find? (fun p => p.1 == m) with
  | some p => p.2
  | none => []

/-- The mode actually used by an invocation: `mode || Object.keys(grammar)[0]`
(`lex.js` line 34). -/
def defMode {γ : Type} (g : Grammar γ) (m : String) : String :=
  if m = "" then firstMode g else m

/-- Outcome of scanning the alternatives of one rule name: a truthy match
(with the `matchType` in force at the break) or fall-through to the next rule
name (carrying the possibly stale `matchType`, mirroring that `lex.js` only
resets `matchType` when a function rule runs). -/
inductive ScanOut (γ : Type) where
  | found (m : List Char) (mt : MT) (st : γ)
  | cont (mt : MT) (st : γ)

/-- Scan the alternatives of one rule name in order (`lex.js` lines 45-54):
string rules prefix-match, regex rules return their match, function rules run
on (state, ahead, behind, tokens); only a non-empty (truthy) match breaks the
loop. -/
def scanPats {γ : Type} (cur behind : List Char) (res : List Token) :
    List (GRule γ) → MT → γ → ScanOut γ
  | [], mt, st => .cont mt st
  | .str s :: ps, mt, st =>
    if s.isPrefixOf cur && !s.isEmpty then .found s mt st
    else scanPats cur behind res ps mt st
  | .regex f :: ps, mt, st =>
    match f cur with
    | some m => if !m.isEmpty then .found m mt st else scanPats cur behind res ps mt st
    | none => scanPats cur behind res ps mt st
  | .fn f :: ps, _mt, st =>
    match f st cur behind res with
    | (none, st') => scanPats cur behind res ps .undef st'
    | (some (m, mt'), st') =>
      if !m.isEmpty then .found m mt' st' else scanPats cur behind res ps mt' st'

/-- Scan every rule name of the current mode in declaration order (`lex.js`
lines 40-54), returning the winning `(type, match, matchType)` or `none` when
no rule produced a truthy match. -/
def scanTypes {γ : Type} (cur behind : List Char) (res : List Token) :
    List (String × List (GRule γ)) → MT → γ → Option (String × List Char × MT) × γ
  | [], _, st => (none, st)
  | (ty, pats) :: rest, mt, st =>
    match scanPats cur behind res pats mt st with
    | .found m mt' st' => (some (ty, m, mt'), st')
    | .cont mt' st' => scanTypes cur behind res rest mt' st'

/-- The mode pushed by a `matchType`, if any: a non-empty mode string is
truthy and not `-1` (`lex.js` lines 63/67). -/
def pushTarget : MT → Option String
  | .mode m => if m = "" then none else some m
  | _ => none

/-- Line/col update of `lex.js` lines 76-79: advance `line` by the newlines in
the consumed text; the new column is `(length after the last newline) + 1`
when the text contains a newline (`-lastLn + length`), else `col + length`. -/
def advance (line col : Nat) (t : List Char) : Nat × Nat :=
  (line + countNl t,
    match lastIndexOf t '\n' with
    | some k => t.length - k
    | none => col + t.length)

/-- Fuel-indexed embedding of `lex` (`lex.js` lines 33-83).  One unit of fuel
is spent per loop iteration and per recursive descent; `none` means the fuel
ran out (shown impossible for fuel exceeding the remaining input length).
On success it returns the final threaded state and either the token list or
the thrown `LexError`. -/
def lexF {γ : Type} :
    Nat → Grammar γ → List Char → String → List Token → Nat → Nat → Nat → γ →
    Option (γ × Except LexError (List Token))
  | 0, _, _, _, _, _, _, _, _ => none
  | fuel + 1, g, code, mode, result, line, col, index, st =>
    if index < code.length then
      match scanTypes (code.drop index) (code.take index) result (modeRules g mode) .undef st with
      | (none, st') => some (st', .error (mkLexError code mode line col index))
      | (some (ty, m, mt), st') =>
        match mt with
        | .pop => some (st', .ok (result ++ [Token.mk m ty mode line col []]))
        | mt2 =>
          match pushTarget mt2 with
          | some newMode =>
            match lexF fuel g code newMode [] line (col + m.length) (index + m.length) st' with
            | none => none
            | some (st2, .error e) => some (st2, .error e)
            | some (st2, .ok childToks) =>
              lexF fuel g code mode
                (result ++ [Token.mk (m ++ concatText childToks) ty mode line col
                  (Token.mk m ty newMode line col [] :: childToks)])
                (advance line col (m ++ concatText childToks)).1
                (advance line col (m ++ concatText childToks)).2
                (index + (m ++ concatText childToks).length) st2
          | none =>
            lexF fuel g code mode (result ++ [Token.mk m ty mode line col []])
              (advance line col m).1 (advance line col m).2 (index + m.length) st'
    else
      some (st, .ok result)

/-- A top-level `lex` invocation with default start position 1:1 and an empty
result accumulator, with enough fuel for the whole input. -/
def lexTop {γ : Type} (g : Grammar γ) (code : List Char) (mode : String) (st : γ) :
    Option (γ × Except LexError (List Token)) :=
  lexF (code.length + 1) g code (defMode g mode) [] 1 1 0 st

/-!
The pattern engine of `src/unnamed/part_000` (`fregex`): combinators that turn
declarative rule trees into matchers over token slices.  A matcher returns the
number of tokens consumed, or a negative result, faithfully distinguishing the
three ways JS evaluation can go wrong for the specification's purposes:
`fail` is the normal negative result (`false`), `err` is a thrown `TypeError`
(property access on `tokens[0]` when the slice is empty), and `diverge` is the
infinite loop `fregex.xOrMore` enters when its wrapped sequence matches zero
tokens on a non-empty slice.
-/

/-- Result of a matcher applied to a token slice. -/
inductive Res where
  | fail
  | ok (n : Nat)
  | err
  | diverge
deriving DecidableEq

/-- A compiled matcher: token slice in, consumed-count or negative result
out. -/
abbrev Matcher := List Token → Res

/-- `prepare`'s translation of a literal string rule (`part_000` line 20):
`tokens => tokens[0] == rule` — loose equality of a token against a string
compares the token's text; on an empty slice `undefined == rule` is `false`. -/
def litM (s : List Char) : Matcher := fun toks =>
  match toks with
  | [] => .fail
  | t :: _ => if t.text = s then .ok 1 else .fail

/-- One named attribute/value requirement of an attribute-predicate object,
ranging over the fields a `lex` token actually carries. -/
inductive AttrKV where
  | text (v : List Char)
  | ty (v : String)
  | mode (v : String)
  | line (v : Nat)
  | col (v : Nat)
deriving DecidableEq

/-- Does the token satisfy one attribute requirement (`tokens[0][name] ==
rule[name]`)? -/
def attrHolds (t : Token) : AttrKV → Bool
  | .text v => t.text == v
  | .ty v => t.ty == v
  | .mode v => t.mode == v
  | .line v => t.line == v
  | .col v => t.col == v

/-- `prepare`'s translation of an attribute-predicate object (`part_000` lines
27-32).  With a non-empty property list and an empty slice, JS evaluates
`tokens[0][name]` on `undefined` and THROWS (`err`); with an empty property
list the loop body never runs and it returns 1 even on an empty slice. -/
def attrM (kvs : List AttrKV) : Matcher := fun toks =>
  match kvs, toks with
  | [], _ => .ok 1
  | _ :: _, [] => .err
  | _ :: _, t :: _ => if kvs.all (attrHolds t) then .ok 1 else .fail

/-- The sequencing loop of `fregex(...rules)` (`part_000` lines 49-60): apply
each rule to `tokens.slice(i)`, fail/throw as soon as one does, else
accumulate the consumed count. -/
def seqGo : List Matcher → List Token → Nat → Res
  | [], _, i => .ok i
  | m :: ms, toks, i =>
    match m (toks.drop i) with
    | .ok u => seqGo ms toks (i + u)
    | .fail => .fail
    | .err => .err
    | .diverge => .diverge

/-- `fregex(...rules)`: the sequence (AND) combinator. -/
def seqM (ms : List Matcher) : Matcher := fun toks => seqGo ms toks 0

/-- The loop of `fregex.or` (`part_000` lines 66-74): first rule whose result
is not `false` wins. -/
def orGo : List Matcher → List Token → Res
  | [], _ => .fail
  | m :: ms, toks =>
    match m toks with
    | .fail => orGo ms toks
    | r => r

/-- `fregex.or`: ordered alternation. -/
def orMat (ms : List Matcher) : Matcher := fun toks => orGo ms toks

/-- `fregex.not` (`part_000` lines 79-83): zero-width negative lookahead. -/
def notMat (ms : List Matcher) : Matcher := fun toks =>
  match seqM ms toks with
  | .fail => .ok 0
  | .ok _ => .fail
  | r => r

/-- The loop of `fregex.nor` (`part_000` lines 88-94): fail as soon as a rule
matches a positive count, otherwise consume exactly one token — even when the
slice is empty, since the final `return 1` does not look at the slice. -/
def norGo : List Matcher → List Token → Res
  | [], _ => .ok 1
  | m :: ms, toks =>
    match m toks with
    | .ok (_ + 1) => .fail
    | .ok 0 => norGo ms toks
    | .fail => norGo ms toks
    | r => r

/-- `fregex.nor`: negated single-token class. -/
def norM (ms : List Matcher) : Matcher := fun toks => norGo ms toks

/-- `fregex.zeroOrOne` (`part_000` lines 99-107). -/
def zeroOrOneM (ms : List Matcher) : Matcher := fun toks =>
  match seqM ms toks with
  | .fail => .ok 0
  | r => r

/-- The loop of `fregex.xOrMore` (`part_000` lines 112-122), fuel-indexed.
Each iteration either exits or strictly shrinks the slice, so fuel
`tokens.length + 1` never runs out; a zero-count match on a non-empty slice
leaves the JS loop spinning forever, reported as `diverge` (the fuel-exhausted
value is also `diverge`, and is unreachable under that fuel). -/
def xGo (x : Nat) (f : Matcher) : Nat → List Token → Nat → Nat → Res
  | 0, _, _, _ => .diverge
  | _ + 1, [], _, total => .ok total
  | fuel + 1, t :: ts, i, total =>
    match f (t :: ts) with
    | .fail => if x ≤ i then .ok total else .fail
    | .ok 0 => .diverge
    | .ok (u + 1) => xGo x f fuel (ts.drop u) (i + 1) (total + (u + 1))
    | r => r

/-- `fregex.xOrMore(x, ...rules)`: greedy repetition of the wrapped sequence. -/
def xOrMoreM (x : Nat) (ms : List Matcher) : Matcher := fun toks =>
  xGo x (seqM ms) (toks.length + 1) toks 0 0

/-- `fregex.zeroOrMore` (`part_000` line 125). -/
def zeroOrMoreM (ms : List Matcher) : Matcher := xOrMoreM 0 ms

/-- `fregex.oneOrMore` (`part_000` line 126). -/
def oneOrMoreM (ms : List Matcher) : Matcher := xOrMoreM 1 ms

/-- The loop of `fregex.lookAhead` (`part_000` lines 156-164): every rule is
tested against the SAME slice; succeeds with 0 if none fails. -/
def laGo : List Matcher → List Token → Res
  | [], _ => .ok 0
  | m :: ms, toks =>
    match m toks with
    | .fail => .fail
    | .ok _ => laGo ms toks
    | r => r

/-- `fregex.lookAhead`. -/
def lookAheadM (ms : List Matcher) : Matcher := fun toks => laGo ms toks

/-- `fregex.end` (`part_000` lines 171-173). -/
def endM : Matcher := fun toks => if toks.isEmpty then .ok 0 else .fail

/-- Is another match still allowed under the limit
(`result.length < limit`, with `limit = Infinity` when unbounded)? -/
def underLimit : Option Nat → Nat → Bool
  | none, _ => true
  | some l, k => k < l

/-- The loop of `fregex.matchAll` (`part_000` lines 146-150): test the pattern
at offsets `i, i+1, ...` (fuel counts the remaining offsets, so the loop stops
at the haystack length), recording each match as `(origin offset, matched
sub-slice)`; a thrown/diverging pattern evaluation yields `none`. -/
def maGo (p : Matcher) (hay : List Token) (limit : Option Nat) :
    Nat → Nat → List (Nat × List Token) → Option (List (Nat × List Token))
  | 0, _, acc => some acc
  | rem + 1, i, acc =>
    if underLimit limit acc.length then
      match p (hay.drop i) with
      | .fail => maGo p hay limit rem (i + 1) acc
      | .ok n => maGo p hay limit rem (i + 1) (acc ++ [(i, (hay.drop i).take n)])
      | _ => none
    else some acc

/-- `fregex.matchAll(pattern, haystack, limit)`. -/
def matchAll (p : Matcher) (hay : List Token) (limit : Option Nat) :
    Option (List (Nat × List Token)) :=
  maGo p hay limit hay.length 0 []

/-- `fregex.matchFirst` (`part_000` lines 135-138). -/
def matchFirst (p : Matcher) (hay : List Token) : Option (Nat × List Token) :=
  match matchAll p hay (some 1) with
  | some (r :: _) => some r
  | _ => none

/-- A declarative pattern rule tree, as accepted by `fregex` and `prepare`:
literal strings, attribute-predicate objects, nested lists (sequences), and
the combinators. -/
inductive Pat where
  | lit (s : List Char)
  | attr (kvs : List AttrKV)
  | seq (ps : List Pat)
  | orP (ps : List Pat)
  | notP (ps : List Pat)
  | nor (ps : List Pat)
  | zeroOrOne (ps : List Pat)
  | xOrMore (x : Nat) (ps : List Pat)
  | lookAhead (ps : List Pat)
  | endP

mutual
/-- Compile a rule tree into a matcher, following `prepare`/`fregex`. -/
def compile : Pat → Matcher
  | .lit s => litM s
  | .attr kvs => attrM kvs
  | .seq ps => seqM (compileL ps)
  | .orP ps => orMat (compileL ps)
  | .notP ps => notMat (compileL ps)
  | .nor ps => norM (compileL ps)
  | .zeroOrOne ps => zeroOrOneM (compileL ps)
  | .xOrMore x ps => xOrMoreM x (compileL ps)
  | .lookAhead ps => lookAheadM (compileL ps)
  | .endP => endM

/-- Compile each rule of a list. -/
def compileL : List Pat → List Matcher
  | [] => []
  | p :: ps => compile p :: compileL ps
end

mutual
/-- Does the rule tree avoid attribute-predicate objects entirely? -/
def noAttr : Pat → Bool
  | .lit _ => true
  | .attr _ => false
  | .seq ps => noAttrL ps
  | .orP ps => noAttrL ps
  | .notP ps => noAttrL ps
  | .nor ps => noAttrL ps
  | .zeroOrOne ps => noAttrL ps
  | .xOrMore _ ps => noAttrL ps
  | .lookAhead ps => noAttrL ps
  | .endP => true

/-- `noAttr` on every rule of a list. -/
def noAttrL : List Pat → Bool
  | [] => true
  | p :: ps => noAttr p && noAttrL ps
end

/-!
Basic facts about the rule scan of `lex`.
-/

/-- A winning scan match is never the empty string: `lex.js` only breaks out
of the rule loop on a truthy token. -/
theorem scanPats_found_ne_nil {γ : Type} {cur behind : List Char} {res : List Token} :
    ∀ {ps : List (GRule γ)} {mt : MT} {st : γ} {m : List Char} {mt' : MT} {st' : γ},
    scanPats cur behind res ps mt st = .found m mt' st' → m ≠ [] := by
  intro ps
  induction ps with
  | nil => intro mt st m mt' st' h; simp [scanPats] at h
  | cons p ps ih =>
    intro mt st m mt' st' h
    cases p with
    | str s =>
      rw [scanPats] at h
      split at h
      · rename_i hcond
        cases h
        simpa using (Bool.and_elim_right hcond)
      · exact ih h
    | regex f =>
      rw [scanPats] at h
      split at h
      · rename_i m0 hm0
        split at h
        · rename_i hcond
          cases h
          simpa using hcond
        · exact ih h
      · exact ih h
    | fn f =>
      rw [scanPats] at h
      split at h
      · exact ih h
      · rename_i m0 mt0 st0 hm0
        split at h
        · rename_i hcond
          cases h
          simpa using hcond
        · exact ih h

/-- A winning mode scan never returns an empty match. -/
theorem scanTypes_found_ne_nil {γ : Type} {cur behind : List Char} {res : List Token} :
    ∀ {rules : List (String × List (GRule γ))} {mt : MT} {st : γ}
      {ty : String} {m : List Char} {mt' : MT} {st' : γ},
    scanTypes cur behind res rules mt st = (some (ty, m, mt'), st') → m ≠ [] := by
  intro rules
  induction rules with
  | nil => intro mt st ty m mt' st' h; simp [scanTypes] at h
  | cons p rest ih =>
    intro mt st ty m mt' st' h
    rw [scanTypes] at h
    split at h
    · rename_i m0 mt0 st0 hfound
      cases h
      exact scanPats_found_ne_nil hfound
    · exact ih h

/-- C9 helper and claim: with fuel exceeding the remaining input length, the
embedded `lex` never runs out of fuel — every loop iteration consumes a
non-empty token and therefore strictly advances the cursor, and every
recursive descent resumes strictly past the text already consumed. -/
theorem c9_lex_terminates {γ : Type} (g : Grammar γ) (code : List Char) :
    ∀ (fuel : Nat) (mode : String) (res : List Token) (line col index : Nat) (st : γ),
    code.length - index < fuel →
    (lexF fuel g code mode res line col index st).isSome = true := by
  intro fuel
  induction fuel with
  | zero => intro mode res line col index st h; omega
  | succ f ih =>
    intro mode res line col index st h
    rw [lexF]
    split
    case isFalse => simp
    case isTrue hlt =>
      split
      case h_1 => simp
      case h_2 ty m mt st' hscan =>
        have hm : m ≠ [] := scanTypes_found_ne_nil hscan
        have hm1 : 0 < m.length := List.length_pos.mpr hm
        split
        case h_1 => simp
        case h_2 mt2 hmt2 =>
          split
          case h_1 newMode hpush =>
            have hchild := ih newMode [] line (col + m.length) (index + m.length) st'
              (by omega)
            split
            case h_1 hnone => rw [hnone] at hchild; simp at hchild
            case h_2 st2 e hc => simp
            case h_3 st2 childToks hc =>
              exact ih mode _ _ _ _ st2 (by simp; omega)
          case h_2 hpush =>
            exact ih mode _ _ _ _ st' (by omega)

/-- Reaching the end of the input returns the accumulated partial token list
with no error and an unchanged state (`lex.js`: the `while` guard fails and
`result` is returned). -/
theorem lexF_eof {γ : Type} (fuel : Nat) (g : Grammar γ) (code : List Char) (mode : String)
    (res : List Token) (line col index : Nat) (st : γ) (h : code.length ≤ index) :
    lexF (fuel + 1) g code mode res line col index st = some (st, .ok res) := by
  rw [lexF]
  rw [if_neg (by omega)]

/-- When a push directive fires and its match reaches the end of the input,
the recursive call immediately returns an empty child list, and `lex` returns
the accumulated tokens plus a composite token whose only child is the
trigger — the unterminated nested mode is not an error. -/
theorem lexF_push_eof {γ : Type} (fuel : Nat) (g : Grammar γ) (code : List Char)
    (mode : String) (res : List Token) (line col index : Nat) (st st' : γ)
    (ty newMode : String) (m : List Char)
    (hlt : index < code.length)
    (hscan : scanTypes (code.drop index) (code.take index) res (modeRules g mode) .undef st
      = (some (ty, m, .mode newMode), st'))
    (hnm : newMode ≠ "")
    (hend : code.length ≤ index + m.length) :
    lexF (fuel + 2) g code mode res line col index st
      = some (st', .ok (res ++ [Token.mk m ty mode line col
          [Token.mk m ty newMode line col []]])) := by
  rw [lexF]
  rw [if_pos hlt, hscan]
  have hchild := lexF_eof fuel g code newMode [] line (col + m.length) (index + m.length) st'
    hend
  simp only [pushTarget, if_neg hnm, hchild, concatText, List.append_nil]
  exact lexF_eof fuel g code mode _ _ _ _ st' (by simpa using hend)

/-- C5: reaching end-of-input inside any invocation — in particular inside a
pushed (nested) mode whose pop rule was never matched — returns the partial
token sequence accumulated so far without raising an error; and a push whose
trigger ends the input yields a composite token with the trigger as its only
child, again without error. -/
theorem c5_unterminated_mode_lenient :
    (∀ (γ : Type) (fuel : Nat) (g : Grammar γ) (code : List Char) (mode : String)
      (res : List Token) (line col index : Nat) (st : γ),
      code.length ≤ index →
      lexF (fuel + 1) g code mode res line col index st = some (st, .ok res)) ∧
    (∀ (γ : Type) (fuel : Nat) (g : Grammar γ) (code : List Char) (mode : String)
      (res : List Token) (line col index : Nat) (st st' : γ) (ty newMode : String)
      (m : List Char),
      index < code.length →
      scanTypes (code.drop index) (code.take index) res (modeRules g mode) .undef st
        = (some (ty, m, .mode newMode), st') →
      newMode ≠ "" →
      code.length ≤ index + m.length →
      lexF (fuel + 2) g code mode res line col index st
        = some (st', .ok (res ++ [Token.mk m ty mode line col
            [Token.mk m ty newMode line col []]]))) :=
  ⟨fun _ fuel g code mode res line col index st h =>
      lexF_eof fuel g code mode res line col index st h,
   fun _ fuel g code mode res line col index st st' ty newMode m hlt hscan hnm hend =>
      lexF_push_eof fuel g code mode res line col index st st' ty newMode m hlt hscan hnm hend⟩

/-- When no rule of the current mode produces a truthy match at the cursor,
`lex` returns the no-match error built from the current mode, line, col and
offset (`lex.js` lines 56-59). -/
theorem lexF_nomatch {γ : Type} (fuel : Nat) (g : Grammar γ) (code : List Char)
    (mode : String) (res : List Token) (line col index : Nat) (st st' : γ)
    (hlt : index < code.length)
    (hscan : scanTypes (code.drop index) (code.take index) res (modeRules g mode) .undef st
      = (none, st')) :
    lexF (fuel + 1) g code mode res line col index st
      = some (st', .error (mkLexError code mode line col index)) := by
  rw [lexF, if_pos hlt, hscan]

/-- Every error the embedded `lex` ever returns is a no-match error built by
`mkLexError` at some reachable mode/position — the tokenizer raises nothing
else. -/
theorem lexF_error_shape {γ : Type} (g : Grammar γ) (code : List Char) :
    ∀ (fuel : Nat) (mode : String) (res : List Token) (line col index : Nat) (st st' : γ)
      (e : LexError),
    lexF fuel g code mode res line col index st = some (st', .error e) →
    ∃ mode2 line2 col2 index2, index2 < code.length ∧
      e = mkLexError code mode2 line2 col2 index2 := by
  intro fuel
  induction fuel with
  | zero => intro mode res line col index st st' e h; simp [lexF] at h
  | succ f ih =>
    intro mode res line col index st st' e h
    rw [lexF] at h
    split at h
    case isFalse => simp at h
    case isTrue hlt =>
      split at h
      case h_1 st1 hscan =>
        simp only [Option.some.injEq, Prod.mk.injEq, Except.error.injEq] at h
        exact ⟨mode, line, col, index, hlt, h.2.symm⟩
      case h_2 ty m mt st1 hscan =>
        split at h
        case h_1 => simp at h
        case h_2 mt2 hmt2 =>
          split at h
          case h_1 newMode hpush =>
            split at h
            case h_1 => simp at h
            case h_2 st2 e2 hc =>
              simp only [Option.some.injEq, Prod.mk.injEq, Except.error.injEq] at h
              exact h.2 ▸ ih _ _ _ _ _ _ _ _ hc
            case h_3 st2 childToks hc =>
              exact ih _ _ _ _ _ _ _ _ h
          case h_2 hpush =>
            exact ih _ _ _ _ _ _ _ _ h

/-- Escaping a character into a two-character chunk at most doubles the
length. -/
theorem replCh_length_le (c a b : Char) :
    ∀ l : List Char, (replCh c [a, b] l).length ≤ 2 * l.length := by
  intro l
  induction l with
  | nil => simp [replCh]
  | cons x l ih =>
    rw [replCh]
    split <;> simp <;> omega

/-- The escaped context is at most four times the raw window. -/
theorem escapeRN_length_le (l : List Char) : (escapeRN l).length ≤ 4 * l.length := by
  have h1 := replCh_length_le '\r' '\\' 'r' l
  have h2 := replCh_length_le '\n' '\\' 'n' (replCh '\r' ['\\', 'r'] l)
  rw [escapeRN]
  omega

/-- The context window of a `lex` error is bounded: at most 10 characters
before the offset, the warning sign, 20 after, each escaped to at most two
characters twice over. -/
theorem mkLexError_context_le (code : List Char) (mode : String) (line col index : Nat) :
    (mkLexError code mode line col index).context.length ≤ 128 := by
  rw [mkLexError]
  refine le_trans (escapeRN_length_le _) ?_
  have hA : (((code.take index).drop (index - 10))).length ≤ 10 := by
    rw [List.length_drop, List.length_take]
    omega
  have hB : (((code.drop index).take 20)).length ≤ 20 := by
    rw [List.length_take]
    omega
  simp only [List.length_append, warnChars, List.length_cons, List.length_nil]
  omega

/-- The mode-named-`js` grammar used for the spec's Scenario 4: a single
literal rule. -/
def gJs8 : Grammar Unit := [("js", [("x", [.str ['x']])])]

/-- C8: when no rule of the current mode matches at the cursor, `lex` fails
with the no-match error carrying the current mode, line, col and a bounded
window of text around the offending offset; every error it ever returns has
exactly that shape (it is the only checked error); the context window is
bounded; and, as in the spec's Scenario 4, input failing at offset 5 in a
mode named `js` yields the error at mode `js`, line 1, col 6. -/
theorem c8_lex_error_taxonomy :
    (∀ (γ : Type) (fuel : Nat) (g : Grammar γ) (code : List Char) (mode : String)
      (res : List Token) (line col index : Nat) (st st' : γ),
      index < code.length →
      scanTypes (code.drop index) (code.take index) res (modeRules g mode) .undef st
        = (none, st') →
      lexF (fuel + 1) g code mode res line col index st
        = some (st', .error (mkLexError code mode line col index))) ∧
    (∀ (γ : Type) (fuel : Nat) (g : Grammar γ) (code : List Char) (mode : String)
      (res : List Token) (line col index : Nat) (st st' : γ) (e : LexError),
      lexF fuel g code mode res line col index st = some (st', .error e) →
      ∃ mode2 line2 col2 index2, index2 < code.length ∧
        e = mkLexError code mode2 line2 col2 index2) ∧
    (∀ (code : List Char) (mode : String) (line col index : Nat),
      (mkLexError code mode line col index).context.length ≤ 128) ∧
    lexTop gJs8 (chars "xxxxx?") "" ()
      = some ((), .error (mkLexError (chars "xxxxx?") "js" 1 6 5)) :=
  ⟨fun _ fuel g code mode res line col index st st' hlt hscan =>
      lexF_nomatch fuel g code mode res line col index st st' hlt hscan,
   fun _ fuel g code mode res line col index st st' e h =>
      lexF_error_shape g code fuel mode res line col index st st' e h,
   fun code mode line col index => mkLexError_context_le code mode line col index,
   by rfl⟩

/-- Witness for C8: a concrete no-match at offset 0 of input `?` in the mode
named `js`, where the theorem's hypotheses hold by computation and the
conclusion produces the concrete error. -/
theorem c8_lex_error_taxonomy_witness :
    lexF 1 gJs8 (chars "?") "js" [] 1 1 0 ()
      = some ((), .error (mkLexError (chars "?") "js" 1 1 0)) :=
  c8_lex_error_taxonomy.1 Unit 0 gJs8 (chars "?") "js" [] 1 1 0 () ()
    (by decide) (by rfl)

/-!
Round-trip: grammars whose rules return matches that are genuine prefixes of
the text ahead (as the `lex.js` documentation specifies: the rule returns
"the string that matches").  String rules are checked by `lex` itself; the
condition constrains the abstractly modelled regex and function rules.
-/

/-- A rule only ever reports matches that are prefixes of the text ahead. -/
def RulePrefixSound {γ : Type} : GRule γ → Prop
  | .str _ => True
  | .regex f => ∀ cur m, f cur = some m → m <+: cur
  | .fn f => ∀ st cur behind res m mt,
      (f st cur behind res).1 = some (m, mt) → m <+: cur

/-- Every rule of every mode of the grammar is prefix-sound. -/
def PrefixSound {γ : Type} (g : Grammar γ) : Prop :=
  ∀ mp ∈ g, ∀ tp ∈ mp.2, ∀ r ∈ tp.2, RulePrefixSound r

/-- The rules of any mode of a prefix-sound grammar are prefix-sound. -/
theorem modeRules_prefixSound {γ : Type} {g : Grammar γ} (hg : PrefixSound g) (mode : String) :
    ∀ tp ∈ modeRules g mode, ∀ r ∈ tp.2, RulePrefixSound r := by
  intro tp htp r hr
  rw [modeRules] at htp
  split at htp
  case h_1 p hfind => exact hg p (List.mem_of_find?_eq_some hfind) tp htp r hr
  case h_2 => simp at htp

/-- A winning match of a prefix-sound alternative list is a prefix of the
text ahead. -/
theorem scanPats_prefix_of_sound {γ : Type} {cur behind : List Char} {res : List Token} :
    ∀ {ps : List (GRule γ)}, (∀ r ∈ ps, RulePrefixSound r) →
    ∀ {mt : MT} {st : γ} {m : List Char} {mt' : MT} {st' : γ},
    scanPats cur behind res ps mt st = .found m mt' st' → m <+: cur := by
  intro ps
  induction ps with
  | nil => intro _ mt st m mt' st' h; simp [scanPats] at h
  | cons p ps ih =>
    intro hps mt st m mt' st' h
    have hp := hps p (by simp)
    have hrest : ∀ r ∈ ps, RulePrefixSound r := fun r hr => hps r (by simp [hr])
    cases p with
    | str s =>
      rw [scanPats] at h
      split at h
      · rename_i hcond
        cases h
        exact List.isPrefixOf_iff_prefix.mp (Bool.and_elim_left hcond)
      · exact ih hrest h
    | regex f =>
      rw [scanPats] at h
      split at h
      · rename_i m0 hm0
        split at h
        · cases h
          exact hp cur m hm0
        · exact ih hrest h
      · exact ih hrest h
    | fn f =>
      rw [scanPats] at h
      split at h
      · exact ih hrest h
      · rename_i m0 mt0 st0 heq
        split at h
        · cases h
          exact hp st cur behind res m mt' (by rw [heq])
        · exact ih hrest h

/-- A winning match of the mode scan of a prefix-sound grammar is a prefix of
the text ahead. -/
theorem scanTypes_prefix_of_sound {γ : Type} {cur behind : List Char} {res : List Token} :
    ∀ {rules : List (String × List (GRule γ))},
    (∀ tp ∈ rules, ∀ r ∈ tp.2, RulePrefixSound r) →
    ∀ {mt : MT} {st : γ} {ty : String} {m : List Char} {mt' : MT} {st' : γ},
    scanTypes cur behind res rules mt st = (some (ty, m, mt'), st') → m <+: cur := by
  intro rules
  induction rules with
  | nil => intro _ mt st ty m mt' st' h; simp [scanTypes] at h
  | cons p rest ih =>
    intro hr mt st ty m mt' st' h
    rw [scanTypes] at h
    split at h
    · rename_i m0 mt0 st0 hfound
      cases h
      exact scanPats_prefix_of_sound (hr p (by simp)) hfound
    · exact ih (fun tp htp => hr tp (by simp [htp])) h

/-- Chain a prefix at a cursor with a prefix of the remaining text. -/
theorem prefix_chain {α : Type} {m rest cur : List α} (h1 : m <+: cur)
    (h2 : rest <+: cur.drop m.length) : m ++ rest <+: cur := by
  obtain ⟨t1, rfl⟩ := h1
  rw [List.drop_left] at h2
  obtain ⟨t2, rfl⟩ := h2
  exact ⟨t2, by simp⟩

/-- Rewrite the tail drop of a cursor decomposition. -/
theorem drop_add_eq {α : Type} (code : List α) (index k : Nat) :
    code.drop (index + k) = (code.drop index).drop k := by
  rw [List.drop_drop, Nat.add_comm]

/-- Covering lemma: for a prefix-sound grammar, any successful run of the
embedded `lex` appends tokens whose concatenated text is a prefix of the text
from the cursor onward. -/
theorem lexF_covers {γ : Type} (g : Grammar γ) (hg : PrefixSound g) (code : List Char) :
    ∀ (fuel : Nat) (mode : String) (res : List Token) (line col index : Nat) (st st' : γ)
      (toks : List Token),
    lexF fuel g code mode res line col index st = some (st', .ok toks) →
    ∃ new, toks = res ++ new ∧ concatText new <+: code.drop index := by
  intro fuel
  induction fuel with
  | zero => intro mode res line col index st st' toks h; simp [lexF] at h
  | succ f ih =>
    intro mode res line col index st st' toks h
    rw [lexF] at h
    split at h
    case isFalse =>
      simp only [Option.some.injEq, Prod.mk.injEq, Except.ok.injEq] at h
      exact ⟨[], by simp [h.2], by simp [concatText]⟩
    case isTrue hlt =>
      split at h
      case h_1 => simp at h
      case h_2 ty m mt st1 hscan =>
        have hpre : m <+: code.drop index :=
          scanTypes_prefix_of_sound (modeRules_prefixSound hg mode) hscan
        split at h
        case h_1 =>
          simp only [Option.some.injEq, Prod.mk.injEq, Except.ok.injEq] at h
          exact ⟨[Token.mk m ty mode line col []], by simp [h.2], by
            simpa [concatText] using hpre⟩
        case h_2 mt2 hmt2 =>
          split at h
          case h_1 newMode hpush =>
            split at h
            case h_1 => simp at h
            case h_2 => simp at h
            case h_3 st2 childToks hc =>
              obtain ⟨cnew, hcnew, hcpre⟩ := ih _ _ _ _ _ _ _ _ hc
              rw [List.nil_append] at hcnew
              subst hcnew
              obtain ⟨new2, hnew2, hpre2⟩ := ih _ _ _ _ _ _ _ _ h
              rw [drop_add_eq] at hcpre
              have htext : m ++ concatText childToks <+: code.drop index :=
                prefix_chain hpre hcpre
              refine ⟨Token.mk (m ++ concatText childToks) ty mode line col
                (Token.mk m ty newMode line col [] :: childToks) :: new2, ?_, ?_⟩
              · rw [hnew2, List.append_assoc, List.singleton_append]
              · rw [drop_add_eq] at hpre2
                calc concatText (Token.mk (m ++ concatText childToks) ty mode line col
                      (Token.mk m ty newMode line col [] :: childToks) :: new2)
                    = (m ++ concatText childToks) ++ concatText new2 := by
                      simp [concatText, Token.text]
                  _ <+: code.drop index := prefix_chain htext hpre2
          case h_2 hpush =>
            obtain ⟨new2, hnew2, hpre2⟩ := ih _ _ _ _ _ _ _ _ h
            refine ⟨Token.mk m ty mode line col [] :: new2, ?_, ?_⟩
            · rw [hnew2, List.append_assoc, List.singleton_append]
            · rw [drop_add_eq] at hpre2
              calc concatText (Token.mk m ty mode line col [] :: new2)
                  = m ++ concatText new2 := by simp [concatText, Token.text]
                _ <+: code.drop index := prefix_chain hpre hpre2

/-- The scan of a mode never produces a pop directive (no rule of that mode,
nor a stale `matchType`, ever yields the `-1` sentinel at a break). -/
def NoPopScan {γ : Type} (g : Grammar γ) (mode : String) : Prop :=
  ∀ (st : γ) (cur behind : List Char) (res : List Token) (ty : String) (m : List Char)
    (st' : γ),
    scanTypes cur behind res (modeRules g mode) .undef st ≠ (some (ty, m, .pop), st')

/-- Exact-coverage lemma: for a prefix-sound grammar whose scan in the given
mode never pops, a successful run of the embedded `lex` appends tokens whose
concatenated text is EXACTLY the text from the cursor onward (the loop can
only end by consuming the input down to its end). -/
theorem lexF_exact {γ : Type} (g : Grammar γ) (hg : PrefixSound g) (code : List Char)
    (mode : String) (hnp : NoPopScan g mode) :
    ∀ (fuel : Nat) (res : List Token) (line col index : Nat) (st st' : γ)
      (toks : List Token),
    lexF fuel g code mode res line col index st = some (st', .ok toks) →
    ∃ new, toks = res ++ new ∧ concatText new = code.drop index := by
  intro fuel
  induction fuel with
  | zero => intro res line col index st st' toks h; simp [lexF] at h
  | succ f ih =>
    intro res line col index st st' toks h
    rw [lexF] at h
    split at h
    case isFalse hge =>
      simp only [Option.some.injEq, Prod.mk.injEq, Except.ok.injEq] at h
      refine ⟨[], by simp [h.2], ?_⟩
      rw [concatText, List.drop_eq_nil_of_le (by omega)]
    case isTrue hlt =>
      split at h
      case h_1 => simp at h
      case h_2 ty m mt st1 hscan =>
        have hpre : m <+: code.drop index :=
          scanTypes_prefix_of_sound (modeRules_prefixSound hg mode) hscan
        split at h
        case h_1 => exact absurd hscan (hnp st _ _ res ty m st1)
        case h_2 mt2 hmt2 =>
          split at h
          case h_1 newMode hpush =>
            split at h
            case h_1 => simp at h
            case h_2 => simp at h
            case h_3 st2 childToks hc =>
              obtain ⟨cnew, hcnew, hcpre⟩ := lexF_covers g hg code _ _ _ _ _ _ _ _ _ hc
              rw [List.nil_append] at hcnew
              subst hcnew
              obtain ⟨new2, hnew2, heq2⟩ := ih _ _ _ _ _ _ _ h
              rw [drop_add_eq] at hcpre
              have htext : m ++ concatText childToks <+: code.drop index :=
                prefix_chain hpre hcpre
              refine ⟨Token.mk (m ++ concatText childToks) ty mode line col
                (Token.mk m ty newMode line col [] :: childToks) :: new2, ?_, ?_⟩
              · rw [hnew2, List.append_assoc, List.singleton_append]
              · obtain ⟨t2, ht2⟩ := htext
                rw [drop_add_eq, ← ht2, List.drop_left] at heq2
                calc concatText (Token.mk (m ++ concatText childToks) ty mode line col
                      (Token.mk m ty newMode line col [] :: childToks) :: new2)
                    = (m ++ concatText childToks) ++ concatText new2 := by
                      simp [concatText, Token.text]
                  _ = code.drop index := by rw [heq2, ht2]
          case h_2 hpush =>
            obtain ⟨new2, hnew2, heq2⟩ := ih _ _ _ _ _ _ _ h
            refine ⟨Token.mk m ty mode line col [] :: new2, ?_, ?_⟩
            · rw [hnew2, List.append_assoc, List.singleton_append]
            · obtain ⟨t2, ht2⟩ := hpre
              rw [drop_add_eq, ← ht2, List.drop_left] at heq2
              calc concatText (Token.mk m ty mode line col [] :: new2)
                  = m ++ concatText new2 := by simp [concatText, Token.text]
                _ = code.drop index := by rw [heq2, ht2]

/-- C1 (amended): for a prefix-sound grammar, the concatenated text of the
top-level tokens of a successful `lex` run is a PREFIX of the input, and it
equals the input exactly whenever the start mode's scan can never produce a
pop directive (the pop return path is the only early exit). -/
theorem c1_roundtrip_amended (γ : Type) (g : Grammar γ) (code : List Char) (mode : String)
    (st st' : γ) (toks : List Token) (hg : PrefixSound g)
    (h : lexTop g code mode st = some (st', .ok toks)) :
    concatText toks <+: code ∧
      (NoPopScan g (defMode g mode) → concatText toks = code) := by
  constructor
  · obtain ⟨new, hnew, hpre⟩ := lexF_covers g hg code _ _ _ _ _ _ _ _ _ h
    rw [List.nil_append] at hnew
    subst hnew
    simpa using hpre
  · intro hnp
    obtain ⟨new, hnew, heq⟩ := lexF_exact g hg code _ hnp _ _ _ _ _ _ _ _ h
    rw [List.nil_append] at hnew
    subst hnew
    simpa using heq

/-- A prefix-sound grammar whose single rule pops the first character of the
remaining text out of the start mode. -/
def gPop : Grammar Unit :=
  [("a", [("r", [.fn fun st cur _ _ => (some (cur.take 1, .pop), st)])])]

/-- Counterexample to C1 as stated: `lex` with the prefix-sound grammar
`gPop` on input `xy` returns WITHOUT error, yet the concatenation of the
returned top-level tokens' text is `x`, not the input — the pop directive in
the start mode makes `lex` return before consuming the rest. -/
theorem c1_roundtrip_cex :
    PrefixSound gPop ∧
    lexTop gPop (chars "xy") "" () = some ((), .ok [Token.mk ['x'] "r" "a" 1 1 []]) ∧
    concatText [Token.mk ['x'] "r" "a" 1 1 []] ≠ chars "xy" := by
  refine ⟨?_, by rfl, by decide⟩
  intro mp hmp tp htp r hr
  simp only [gPop, List.mem_singleton] at hmp
  subst hmp
  simp only [List.mem_singleton] at htp
  subst htp
  simp only [List.mem_singleton] at hr
  subst hr
  intro st cur behind res m mt h
  simp only [Option.some.injEq, Prod.mk.injEq] at h
  rw [← h.1]
  exact List.take_prefix 1 cur

/-- Single-mode literal grammar used by the C1 witness. -/
def gStr : Grammar Unit := [("a", [("r", [.str ['x']])])]

/-- The scan of `gStr`'s only mode can never produce a pop directive: its only
rule is a literal string, which leaves the initial undefined `matchType` in
place. -/
theorem gStr_noPop : NoPopScan gStr "a" := by
  intro st cur behind res ty m st' h
  have hmr : modeRules gStr "a" = [("r", [.str ['x']])] := by rfl
  rw [hmr, scanTypes, scanPats] at h
  by_cases hc : (List.isPrefixOf ['x'] cur && !List.isEmpty ['x']) = true
  · rw [if_pos hc] at h
    simp at h
  · rw [if_neg hc, scanPats] at h
    simp [scanTypes] at h

/-- `gStr` is prefix-sound: its only rule is a literal string. -/
theorem gStr_prefixSound : PrefixSound gStr := by
  intro mp hmp tp htp r hr
  simp only [gStr, List.mem_singleton] at hmp
  subst hmp
  simp only [List.mem_singleton] at htp
  subst htp
  simp only [List.mem_singleton] at hr
  subst hr
  trivial

/-- Witness for C1 on a concrete run: `gStr` on `xx` produces two tokens whose
concatenated text reconstructs the input exactly. -/
theorem c1_roundtrip_amended_witness :
    concatText [Token.mk ['x'] "r" "a" 1 1 [], Token.mk ['x'] "r" "a" 1 2 []] = chars "xx" :=
  (c1_roundtrip_amended Unit gStr (chars "xx") "" () ()
      [Token.mk ['x'] "r" "a" 1 1 [], Token.mk ['x'] "r" "a" 1 2 []]
      gStr_prefixSound (by rfl)).2 gStr_noPop

/-- Single-mode grammar whose rule pushes mode `b` on match, used by the C5
witness: the push trigger consumes the whole input, leaving the pushed mode
unterminated. -/
def gPush5 : Grammar Unit :=
  [("a", [("p", [.fn fun st cur _ _ =>
    (if cur = ['x'] then some (['x'], .mode "b") else none, st)])])]

/-- Witness for C5: a concrete invocation at end-of-input returns its partial
accumulated token unchanged, and a concrete push whose trigger ends the input
yields the composite token with only the trigger child — both without error. -/
theorem c5_unterminated_mode_lenient_witness :
    lexF 1 gStr (chars "x") "a" [Token.mk ['x'] "r" "a" 1 1 []] 1 2 1 ()
      = some ((), .ok [Token.mk ['x'] "r" "a" 1 1 []]) ∧
    lexF 2 gPush5 (chars "x") "a" [] 1 1 0 ()
      = some ((), .ok ([] ++ [Token.mk ['x'] "p" "a" 1 1 [Token.mk ['x'] "p" "b" 1 1 []]])) :=
  ⟨c5_unterminated_mode_lenient.1 Unit 0 gStr (chars "x") "a"
      [Token.mk ['x'] "r" "a" 1 1 []] 1 2 1 () (by decide),
   c5_unterminated_mode_lenient.2 Unit 0 gPush5 (chars "x") "a" [] 1 1 0 () () "p" "b"
      ['x'] (by decide) (by rfl) (by decide) (by decide)⟩

/-- Witness for C9: with fuel 3 exceeding the two remaining characters, the
embedded `lex` returns a value. -/
theorem c9_lex_terminates_witness :
    (lexF 3 gStr (chars "xx") "a" [] 1 1 0 ()).isSome = true :=
  c9_lex_terminates gStr (chars "xx") 3 "a" [] 1 1 0 () (by decide)

/-!
Position accuracy.  `accLine`/`accCol` define the spec's notion of the
accurate 1-based position of an offset: `1 +` the number of newlines before
it, and the number of characters since the last newline `+ 1`.
-/

/-- Characters since the last newline: length of the longest newline-free
suffix. -/
def sinceNl (l : List Char) : Nat := (l.reverse.takeWhile (fun c => c != '\n')).length

/-- Accurate line of an offset: one plus the newlines strictly before it. -/
def accLine (code : List Char) (idx : Nat) : Nat := 1 + countNl (code.take idx)

/-- Accurate column of an offset: characters since the last newline before
it, plus one (hence offset + 1 when no newline precedes it). -/
def accCol (code : List Char) (idx : Nat) : Nat := sinceNl (code.take idx) + 1

/-- All tokens of a list, recursively including composite children, carry
accurate positions, where the list starts at offset `idx` of `code`, each
token occupies its text's length, and a composite's children start at the
composite's own offset. -/
def PosAcc (code : List Char) : Nat → List Token → Prop
  | _, [] => True
  | idx, Token.mk text _ _ line col children :: ts =>
      line = accLine code idx ∧ col = accCol code idx ∧
      PosAcc code idx children ∧ PosAcc code (idx + text.length) ts

/-- Newline count distributes over append. -/
theorem countNl_append (a b : List Char) : countNl (a ++ b) = countNl a + countNl b := by
  simp [countNl, List.filter_append]

/-- A list without newlines has newline count zero. -/
theorem countNl_eq_zero (l : List Char) (h : '\n' ∉ l) : countNl l = 0 := by
  rw [countNl, List.length_eq_zero]
  rw [List.filter_eq_nil_iff]
  intro c hc
  simp only [beq_iff_eq]
  intro hceq
  exact h (hceq ▸ hc)

/-- `takeWhile` passes over a wholly satisfying prefix. -/
theorem takeWhile_append_all {p : Char → Bool} {a : List Char} (b : List Char)
    (h : ∀ c ∈ a, p c = true) : (a ++ b).takeWhile p = a ++ b.takeWhile p := by
  induction a with
  | nil => simp
  | cons x a ih =>
    rw [List.cons_append, List.takeWhile_cons, h x (by simp), ih (fun c hc => h c (by simp [hc]))]
    simp

/-- `lastIndexOf` is `none` exactly when the character is absent. -/
theorem lastIndexOf_eq_none_iff (c : Char) : ∀ l : List Char, lastIndexOf l c = none ↔ c ∉ l := by
  intro l
  induction l with
  | nil => simp [lastIndexOf]
  | cons a l ih =>
    rw [lastIndexOf]
    constructor
    · intro h
      split at h
      · cases h
      · rename_i hnone
        split at h
        · cases h
        · rename_i hne
          simp only [List.mem_cons, not_or]
          exact ⟨fun hca => hne hca.symm, ih.mp hnone⟩
    · intro h
      simp only [List.mem_cons, not_or] at h
      rw [ih.mpr h.2]
      simp only []
      rw [if_neg (fun hac => h.1 hac.symm)]

/-- `lastIndexOf` finds the last occurrence: the list splits as
`u ++ c :: v` with `u.length` the reported index and no occurrence in `v`. -/
theorem lastIndexOf_spec (c : Char) :
    ∀ (l : List Char) (k : Nat), lastIndexOf l c = some k →
    ∃ u v, l = u ++ c :: v ∧ u.length = k ∧ c ∉ v := by
  intro l
  induction l with
  | nil => intro k h; simp [lastIndexOf] at h
  | cons a l ih =>
    intro k h
    rw [lastIndexOf] at h
    split at h
    · rename_i k' hk'
      cases h
      obtain ⟨u, v, hl, hu, hv⟩ := ih k' hk'
      exact ⟨a :: u, v, by rw [hl, List.cons_append], by simp [hu], hv⟩
    · rename_i hnone
      split at h
      · rename_i hac
        cases h
        exact ⟨[], l, by rw [hac, List.nil_append], rfl, (lastIndexOf_eq_none_iff c l).mp hnone⟩
      · cases h

/-- The step-4 update of `lex.js` (lines 76-79, embedded as `advance`)
preserves position accuracy: if `(line, col)` is accurate for offset `idx`
and the consumed text `t` is exactly the slice of `code` starting there, then
the updated pair is accurate for `idx + t.length`. -/
theorem advance_acc (code t r : List Char) (idx : Nat)
    (hidx : idx ≤ code.length) (hdec : code.drop idx = t ++ r) :
    advance (accLine code idx) (accCol code idx) t
      = (accLine code (idx + t.length), accCol code (idx + t.length)) := by
  have htakelen : (code.take idx).length = idx := by
    rw [List.length_take]; omega
  have htake : code.take (idx + t.length) = code.take idx ++ t := by
    conv_lhs => rw [← List.take_append_drop idx code, hdec]
    rw [List.take_append_eq_append_take, List.take_of_length_le (by omega), htakelen]
    congr 1
    rw [List.take_append_eq_append_take, List.take_of_length_le (by omega)]
    simp
  have hline : accLine code (idx + t.length) = accLine code idx + countNl t := by
    rw [accLine, accLine, htake, countNl_append]; omega
  have hcolsome : ∀ k, lastIndexOf t '\n' = some k →
      accCol code (idx + t.length) = t.length - k := by
    intro k hk
    obtain ⟨u, v, ht, hu, hv⟩ := lastIndexOf_spec '\n' t k hk
    have hlen : t.length = k + 1 + v.length := by
      rw [ht, List.length_append, List.length_cons, hu]; omega
    have hvrev : ∀ c ∈ v.reverse, (c != '\n') = true := by
      intro c hc
      simp only [List.mem_reverse] at hc
      simp only [bne_iff_ne, ne_eq]
      exact fun hceq => hv (hceq ▸ hc)
    have hmain : accCol code (idx + t.length) = v.length + 1 := by
      rw [accCol, sinceNl, htake, ht]
      rw [show code.take idx ++ (u ++ '\n' :: v) = (code.take idx ++ u ++ ['\n']) ++ v by simp]
      rw [List.reverse_append]
      rw [takeWhile_append_all _ hvrev]
      have hzero : ((code.take idx ++ u ++ ['\n']).reverse.takeWhile
          (fun c => c != '\n')) = [] := by
        rw [List.reverse_append]
        simp [List.takeWhile_cons]
      rw [hzero]
      simp
    omega
  have hcolnone : lastIndexOf t '\n' = none →
      accCol code (idx + t.length) = accCol code idx + t.length := by
    intro hk
    have hnl : '\n' ∉ t := (lastIndexOf_eq_none_iff '\n' t).mp hk
    have htrev : ∀ c ∈ t.reverse, (c != '\n') = true := by
      intro c hc
      simp only [List.mem_reverse] at hc
      simp only [bne_iff_ne, ne_eq]
      exact fun hceq => hnl (hceq ▸ hc)
    rw [accCol, accCol, sinceNl, sinceNl, htake, List.reverse_append]
    rw [takeWhile_append_all _ htrev]
    simp only [List.length_append, List.length_reverse]
    omega
  rw [advance, Prod.mk.injEq]
  constructor
  · omega
  · split
    case h_1 k hk => exact (hcolsome k hk).symm
    case h_2 hk => exact (hcolnone hk).symm

/-- A push target decodes the `matchType`: it is a non-empty mode string. -/
theorem pushTarget_eq_some {mt : MT} {m' : String} (h : pushTarget mt = some m') :
    mt = .mode m' ∧ m' ≠ "" := by
  cases mt with
  | undef => simp [pushTarget] at h
  | pop => simp [pushTarget] at h
  | mode m0 =>
    rw [pushTarget] at h
    split at h
    · cases h
    · rename_i hne
      cases h
      exact ⟨rfl, hne⟩

/-- No push-triggering match of any mode's scan contains a newline. -/
def NoNlPush {γ : Type} (g : Grammar γ) : Prop :=
  ∀ (mode : String) (st : γ) (cur behind : List Char) (res : List Token)
    (ty : String) (m : List Char) (newMode : String) (st' : γ),
    scanTypes cur behind res (modeRules g mode) .undef st
      = (some (ty, m, .mode newMode), st') →
    newMode ≠ "" → '\n' ∉ m

/-- The empty token list is accurately positioned. -/
theorem posAcc_nil (code : List Char) (idx : Nat) : PosAcc code idx [] := by
  rw [PosAcc]
  trivial

/-- Unfolding of `PosAcc` at a cons. -/
theorem posAcc_cons (code : List Char) (idx : Nat) (text : List Char) (ty mo : String)
    (line col : Nat) (children ts : List Token) :
    PosAcc code idx (Token.mk text ty mo line col children :: ts) ↔
      (line = accLine code idx ∧ col = accCol code idx ∧ PosAcc code idx children ∧
        PosAcc code (idx + text.length) ts) := by
  rw [PosAcc]

/-- Taking past an exactly-known slice decomposes the take. -/
theorem take_add_of_drop (code t r : List Char) (idx : Nat)
    (hle : idx ≤ code.length) (hdec : code.drop idx = t ++ r) :
    code.take (idx + t.length) = code.take idx ++ t := by
  have htakelen : (code.take idx).length = idx := by
    rw [List.length_take]; omega
  conv_lhs => rw [← List.take_append_drop idx code, hdec]
  rw [List.take_append_eq_append_take, List.take_of_length_le (by omega), htakelen]
  congr 1
  rw [List.take_append_eq_append_take, List.take_of_length_le (by omega)]
  simp

/-- Accurate line after a slice advances by the slice's newline count. -/
theorem accLine_add (code t r : List Char) (idx : Nat)
    (hle : idx ≤ code.length) (hdec : code.drop idx = t ++ r) :
    accLine code (idx + t.length) = accLine code idx + countNl t := by
  rw [accLine, accLine, take_add_of_drop code t r idx hle hdec, countNl_append]; omega

/-- Accurate line is unchanged across a newline-free slice. -/
theorem accLine_no_nl (code t r : List Char) (idx : Nat)
    (hle : idx ≤ code.length) (hdec : code.drop idx = t ++ r) (hnl : '\n' ∉ t) :
    accLine code (idx + t.length) = accLine code idx := by
  rw [accLine_add code t r idx hle hdec, countNl_eq_zero t hnl]
  omega

/-- Accurate column advances by the length of a newline-free slice. -/
theorem accCol_no_nl (code t r : List Char) (idx : Nat)
    (hle : idx ≤ code.length) (hdec : code.drop idx = t ++ r) (hnl : '\n' ∉ t) :
    accCol code (idx + t.length) = accCol code idx + t.length := by
  have htrev : ∀ c ∈ t.reverse, (c != '\n') = true := by
    intro c hc
    simp only [List.mem_reverse] at hc
    simp only [bne_iff_ne, ne_eq]
    exact fun hceq => hnl (hceq ▸ hc)
  rw [accCol, accCol, sinceNl, sinceNl, take_add_of_drop code t r idx hle hdec,
    List.reverse_append, takeWhile_append_all _ htrev]
  simp only [List.length_append, List.length_reverse]
  omega

/-- Position-accuracy lemma: for a prefix-sound grammar none of whose pushes
is triggered by a newline-containing match, a successful run of the embedded
`lex` seeded with the accurate position of its cursor appends accurately
positioned tokens, recursively including all composite children. -/
theorem lexF_posAcc {γ : Type} (g : Grammar γ) (hg : PrefixSound g) (hnl : NoNlPush g)
    (code : List Char) :
    ∀ (fuel : Nat) (mode : String) (res : List Token) (index : Nat) (st st' : γ)
      (toks : List Token),
    lexF fuel g code mode res (accLine code index) (accCol code index) index st
      = some (st', .ok toks) →
    index ≤ code.length →
    ∃ new, toks = res ++ new ∧ PosAcc code index new := by
  intro fuel
  induction fuel with
  | zero => intro mode res index st st' toks h hle; simp [lexF] at h
  | succ f ih =>
    intro mode res index st st' toks h hle
    rw [lexF] at h
    split at h
    case isFalse hge =>
      simp only [Option.some.injEq, Prod.mk.injEq, Except.ok.injEq] at h
      exact ⟨[], by simp [h.2], posAcc_nil code index⟩
    case isTrue hlt =>
      split at h
      case h_1 => simp at h
      case h_2 ty m mt st1 hscan =>
        have hpre : m <+: code.drop index :=
          scanTypes_prefix_of_sound (modeRules_prefixSound hg mode) hscan
        obtain ⟨rest, hdec0⟩ := hpre
        have hdec : code.drop index = m ++ rest := hdec0.symm
        have hmlen : m.length + rest.length = code.length - index := by
          have := congrArg List.length hdec
          simp only [List.length_drop, List.length_append] at this
          omega
        split at h
        case h_1 =>
          simp only [Option.some.injEq, Prod.mk.injEq, Except.ok.injEq] at h
          refine ⟨[Token.mk m ty mode (accLine code index) (accCol code index) []],
            by simp [h.2], ?_⟩
          rw [posAcc_cons]
          exact ⟨rfl, rfl, posAcc_nil code index, posAcc_nil code (index + m.length)⟩
        case h_2 mt2 hmt2 =>
          split at h
          case h_1 newMode hpush =>
            obtain ⟨hmtEq, hne⟩ := pushTarget_eq_some hpush
            subst hmtEq
            have hmnl : '\n' ∉ m := hnl mode st _ _ res ty m newMode st1 hscan hne
            have hline' := accLine_no_nl code m rest index hle hdec hmnl
            have hcol' := accCol_no_nl code m rest index hle hdec hmnl
            split at h
            case h_1 => simp at h
            case h_2 => simp at h
            case h_3 st2 childToks hc =>
              rw [← hline', ← hcol'] at hc
              obtain ⟨cnew, hcnew, hcacc⟩ :=
                ih newMode [] (index + m.length) st1 st2 childToks hc (by omega)
              rw [List.nil_append] at hcnew
              subst hcnew
              have hcc := lexF_covers g hg code f newMode [] _ _ _ st1 st2 childToks hc
              obtain ⟨cnew2, hcnew2, hccpre⟩ := hcc
              rw [List.nil_append] at hcnew2
              subst hcnew2
              rw [drop_add_eq, hdec, List.drop_left] at hccpre
              obtain ⟨crest, hrest⟩ := hccpre
              have hdec2 : code.drop index = (m ++ concatText childToks) ++ crest := by
                rw [hdec, ← hrest, List.append_assoc]
              have hadv2 := advance_acc code (m ++ concatText childToks) crest index hle hdec2
              rw [hadv2] at h
              dsimp only at h
              have hlen2 : (m ++ concatText childToks).length + crest.length
                  = code.length - index := by
                have := congrArg List.length hdec2
                simp only [List.length_drop, List.length_append] at this ⊢
                omega
              obtain ⟨new2, hnew2, hacc2⟩ :=
                ih mode _ (index + (m ++ concatText childToks).length) st2 st' toks h
                  (by simp only [List.length_append] at hlen2 ⊢; omega)
              refine ⟨Token.mk (m ++ concatText childToks) ty mode (accLine code index)
                (accCol code index)
                (Token.mk m ty newMode (accLine code index) (accCol code index) []
                  :: childToks) :: new2, ?_, ?_⟩
              · rw [hnew2, List.append_assoc, List.singleton_append]
              · rw [posAcc_cons]
                refine ⟨rfl, rfl, ?_, hacc2⟩
                rw [posAcc_cons]
                exact ⟨rfl, rfl, posAcc_nil code index, hcacc⟩
          case h_2 hpush =>
            have hadv := advance_acc code m rest index hle hdec
            rw [hadv] at h
            dsimp only at h
            obtain ⟨new2, hnew2, hacc2⟩ :=
              ih mode _ (index + m.length) st1 st' toks h (by omega)
            refine ⟨Token.mk m ty mode (accLine code index) (accCol code index) [] :: new2,
              ?_, ?_⟩
            · rw [hnew2, List.append_assoc, List.singleton_append]
            · rw [posAcc_cons]
              exact ⟨rfl, rfl, posAcc_nil code index, hacc2⟩

/-- C6 (amended): for a prefix-sound grammar none of whose push directives is
triggered by a newline-containing match, every token emitted by a successful
default-position `lex` run — including the children of composite tokens — has
`line` equal to one plus the newlines before its first character and `col`
equal to the characters since the last newline plus one; and the per-token
update of `lex.js` lines 76-79 (`advance`) preserves that accuracy across any
exactly consumed slice. -/
theorem c6_position_accuracy_amended :
    (∀ (γ : Type) (g : Grammar γ) (code : List Char) (mode : String) (st st' : γ)
      (toks : List Token),
      PrefixSound g → NoNlPush g →
      lexTop g code mode st = some (st', .ok toks) →
      PosAcc code 0 toks) ∧
    (∀ (code t r : List Char) (idx : Nat), idx ≤ code.length → code.drop idx = t ++ r →
      advance (accLine code idx) (accCol code idx) t
        = (accLine code (idx + t.length), accCol code (idx + t.length))) := by
  constructor
  · intro γ g code mode st st' toks hg hnl h
    obtain ⟨new, hnew, hacc⟩ :=
      lexF_posAcc g hg hnl code (code.length + 1) (defMode g mode) [] 0 st st' toks h
        (by omega)
    rw [List.nil_append] at hnew
    subst hnew
    exact hacc
  · intro code t r idx hle hdec
    exact advance_acc code t r idx hle hdec

/-- Two-mode grammar whose push trigger `x\ny` contains a newline. -/
def g6 : Grammar Unit :=
  [("a", [("t", [.fn fun st cur _ _ =>
    (if ['x', '\n', 'y'].isPrefixOf cur then some (['x', '\n', 'y'], .mode "b") else none,
     st)])]),
   ("b", [("z", [.str ['z']])])]

/-- Counterexample to C6 as stated: `g6` is prefix-sound, yet lexing `x\nyz`
emits the token `z` (whose first character is at offset 3, preceded by one
newline) with `line = 1`, `col = 4`, while the accurate position is line
`1 + 1 = 2`, column `2` — the recursive descent of `lex.js` line 68 seeds the
pushed mode with `col + trigger.length` and an unchanged `line`, ignoring the
newline inside the trigger. -/
theorem c6_position_accuracy_cex :
    PrefixSound g6 ∧
    lexTop g6 (chars "x\nyz") "" ()
      = some ((), .ok [Token.mk (chars "x\nyz") "t" "a" 1 1
          [Token.mk ['x', '\n', 'y'] "t" "b" 1 1 [], Token.mk ['z'] "z" "b" 1 4 []]]) ∧
    accLine (chars "x\nyz") 3 = 2 ∧ accCol (chars "x\nyz") 3 = 2 ∧
    ¬ PosAcc (chars "x\nyz") 0 [Token.mk (chars "x\nyz") "t" "a" 1 1
          [Token.mk ['x', '\n', 'y'] "t" "b" 1 1 [], Token.mk ['z'] "z" "b" 1 4 []]] := by
  refine ⟨?_, by rfl, by rfl, by rfl, ?_⟩
  · intro mp hmp tp htp r hr
    simp only [g6, List.mem_cons, List.mem_singleton, List.not_mem_nil, or_false] at hmp
    rcases hmp with hmp | hmp
    · subst hmp
      simp only [List.mem_singleton] at htp
      subst htp
      simp only [List.mem_singleton] at hr
      subst hr
      intro st cur behind res m mt h
      simp only [] at h
      split at h
      · rename_i hq
        simp only [Option.some.injEq, Prod.mk.injEq] at h
        rw [← h.1]
        exact List.isPrefixOf_iff_prefix.mp hq
      · simp at h
    · subst hmp
      simp only [List.mem_singleton] at htp
      subst htp
      simp only [List.mem_singleton] at hr
      subst hr
      trivial
  · intro hpa
    rw [posAcc_cons] at hpa
    obtain ⟨-, -, hch, -⟩ := hpa
    rw [posAcc_cons] at hch
    obtain ⟨-, -, -, hz⟩ := hch
    rw [posAcc_cons] at hz
    obtain ⟨hzline, -, -, -⟩ := hz
    revert hzline
    decide

/-- Single-mode grammar whose newline-free trigger `q` pushes a (never
scanned) mode `b`, used by the C6 witness. -/
def gPushQ : Grammar Unit :=
  [("a", [("t", [.fn fun st cur _ _ =>
    (if cur.head? = some 'q' then some (['q'], .mode "b") else none, st)])])]

/-- `gPushQ` is prefix-sound. -/
theorem gPushQ_prefixSound : PrefixSound gPushQ := by
  intro mp hmp tp htp r hr
  simp only [gPushQ, List.mem_singleton] at hmp
  subst hmp
  simp only [List.mem_singleton] at htp
  subst htp
  simp only [List.mem_singleton] at hr
  subst hr
  intro st cur behind res m mt h
  simp only [] at h
  split at h
  · rename_i hq
    simp only [Option.some.injEq, Prod.mk.injEq] at h
    rw [← h.1]
    cases cur with
    | nil => simp at hq
    | cons c cs =>
      simp only [List.head?_cons, Option.some.injEq] at hq
      subst hq
      exact ⟨cs, rfl⟩
  · simp at h

/-- The only push of `gPushQ` is triggered by the newline-free `q`. -/
theorem gPushQ_noNlPush : NoNlPush gPushQ := by
  intro mode st cur behind res ty m newMode st' h hne
  by_cases hma : mode = "a"
  · subst hma
    have hmr : modeRules gPushQ "a"
        = [("t", [.fn fun st cur _ _ =>
            (if cur.head? = some 'q' then some (['q'], .mode "b") else none, st)])] := by rfl
    rw [hmr] at h
    by_cases hq : cur.head? = some 'q'
    · simp only [scanTypes, scanPats, hq, if_pos, List.isEmpty_cons, Bool.not_false,
        if_true] at h
      simp only [Option.some.injEq, Prod.mk.injEq, MT.mode.injEq] at h
      rw [← h.1.2.1]
      decide
    · simp only [scanTypes, scanPats, hq, if_neg, if_false] at h
      simp at h
  · have hmr : modeRules gPushQ mode = [] := by
      rw [modeRules]
      have e1 : (("a" : String) == mode) = false :=
        beq_eq_false_iff_ne.mpr (fun heq => hma heq.symm)
      simp [gPushQ, List.find?, e1]
    rw [hmr] at h
    simp [scanTypes] at h

/-- Witness for C6: lexing `q` with `gPushQ` yields one composite whose
trigger child sits accurately at line 1, column 1. -/
theorem c6_position_accuracy_amended_witness :
    PosAcc (chars "q") 0 [Token.mk ['q'] "t" "a" 1 1 [Token.mk ['q'] "t" "b" 1 1 []]] :=
  c6_position_accuracy_amended.1 Unit gPushQ (chars "q") "" () ()
    [Token.mk ['q'] "t" "a" 1 1 [Token.mk ['q'] "t" "b" 1 1 []]]
    gPushQ_prefixSound gPushQ_noNlPush (by rfl)

/-!
Claims about the pattern engine.
-/

/-- C10: a `Nor` matcher whose wrapped rules are literal strings succeeds on
the EMPTY token slice with consumed count 1, because `fregex.nor` returns 1
whenever no wrapped rule matches a positive count, without checking that a
token exists — and a literal rule on the empty slice compares `undefined`
against the string, yielding no match.  A sequence containing such a `Nor`
therefore reports consuming one more token than the haystack holds. -/
theorem c10_nor_empty_slice :
    (∀ ss : List (List Char), norM (ss.map litM) [] = .ok 1) ∧
    (∀ ss : List (List Char), seqM [norM (ss.map litM)] [] = .ok 1) := by
  have hnor : ∀ ss : List (List Char), norGo (ss.map litM) [] = .ok 1 := by
    intro ss
    induction ss with
    | nil => rfl
    | cons s ss ih =>
      rw [List.map_cons, norGo]
      simpa [litM] using ih
  exact ⟨fun ss => hnor ss, fun ss => by simp [seqM, seqGo, norM, hnor ss]⟩

/-- Specification-side repetition count and total consumption, following the
claim's words for `AtLeast(n)`: the number of successive successful
repetitions of the wrapped matcher (each applied to the slice remaining after
the previous ones) before it first fails or the slice is exhausted, paired
with the total consumed count. -/
def reps (f : Matcher) : List Token → Nat × Nat
  | [] => (0, 0)
  | t :: ts =>
    match f (t :: ts) with
    | .ok (u + 1) =>
      ((reps f (ts.drop u)).1 + 1, (reps f (ts.drop u)).2 + (u + 1))
    | _ => (0, 0)
termination_by toks => toks.length
decreasing_by simp [List.length_drop]; omega

/-- Specification-side remaining slice after the successful repetitions. -/
def repsRest (f : Matcher) : List Token → List Token
  | [] => []
  | t :: ts =>
    match f (t :: ts) with
    | .ok (u + 1) => repsRest f (ts.drop u)
    | _ => t :: ts
termination_by toks => toks.length
decreasing_by simp [List.length_drop]; omega

/-- Characterization of the `fregex.xOrMore` loop for a wrapped matcher that
never throws, never diverges, and never matches zero tokens: it succeeds with
the total consumed count exactly when the remaining slice is exhausted OR at
least `x` repetitions succeeded, and fails otherwise. -/
theorem xGo_spec (x : Nat) (f : Matcher)
    (hf : ∀ s, f s ≠ .err ∧ f s ≠ .diverge ∧ f s ≠ .ok 0) :
    ∀ (n : Nat) (toks : List Token) (i total : Nat), toks.length < n →
    xGo x f n toks i total =
      (if (repsRest f toks).isEmpty ∨ x ≤ i + (reps f toks).1
        then .ok (total + (reps f toks).2) else .fail) := by
  intro n
  induction n with
  | zero => intro toks i total h; omega
  | succ n ih =>
    intro toks i total h
    cases toks with
    | nil =>
      rw [xGo]
      simp [reps, repsRest]
    | cons t ts =>
      rw [xGo]
      split
      case h_1 hr =>
        have hreps : reps f (t :: ts) = (0, 0) := by
          rw [reps, hr]
        have hrest : repsRest f (t :: ts) = t :: ts := by
          rw [repsRest, hr]
        rw [hreps, hrest]
        simp only [List.isEmpty_cons, Bool.false_eq_true, false_or, Nat.add_zero]
      case h_2 hr => exact absurd hr (hf _).2.2
      case h_3 u hr =>
        have hreps : reps f (t :: ts)
            = ((reps f (ts.drop u)).1 + 1, (reps f (ts.drop u)).2 + (u + 1)) := by
          rw [reps, hr]
        have hrest : repsRest f (t :: ts) = repsRest f (ts.drop u) := by
          rw [repsRest, hr]
        have hn : (ts.drop u).length < n := by
          simp only [List.length_cons] at h
          have := List.length_drop u ts
          omega
        rw [ih (ts.drop u) (i + 1) (total + (u + 1)) hn, hreps, hrest]
        by_cases hcond : ((repsRest f (ts.drop u)).isEmpty : Prop) ∨ x ≤ i + 1 + (reps f (ts.drop u)).1
        · rw [if_pos hcond, if_pos (by rcases hcond with hc | hc; exact Or.inl hc; right; omega)]
          congr 1
          omega
        · rw [if_neg hcond, if_neg (by
            intro hc
            rcases hc with hc | hc
            · exact hcond (Or.inl hc)
            · exact hcond (Or.inr (by omega)))]
      case h_4 r hr1 hr2 hr3 =>
        cases hres : f (t :: ts) with
        | fail => exact absurd hres hr1
        | ok u =>
          cases u with
          | zero => exact absurd hres hr2
          | succ u => exact absurd hres (hr3 u)
        | err => exact absurd hres (hf (t :: ts)).1
        | diverge => exact absurd hres (hf (t :: ts)).2.1

/-- C3 (amended): for a wrapped rule sequence that never throws, diverges, or
matches zero tokens, `fregex.xOrMore(x, ...)` succeeds with the total
consumed count exactly when the remaining slice is exhausted or at least `x`
repetitions succeeded; it fails only when the wrapped sequence fails on a
non-empty remaining slice after fewer than `x` repetitions.  In particular it
SUCCEEDS when the slice runs out before `x` repetitions are reached. -/
theorem c3_xOrMore_amended (x : Nat) (ms : List Matcher)
    (hf : ∀ s, seqM ms s ≠ .err ∧ seqM ms s ≠ .diverge ∧ seqM ms s ≠ .ok 0)
    (toks : List Token) :
    xOrMoreM x ms toks =
      (if (repsRest (seqM ms) toks).isEmpty ∨ x ≤ (reps (seqM ms) toks).1
        then .ok ((reps (seqM ms) toks).2) else .fail) := by
  have h := xGo_spec x (seqM ms) hf (toks.length + 1) toks 0 0 (by omega)
  rw [xOrMoreM, h]
  simp only [Nat.zero_add]

/-- Counterexample to C3 as stated: `xOrMore(2, 'x')` on the EMPTY slice has
zero successful repetitions — fewer than 2 — yet the loop exits on the
exhausted slice and returns the total 0 as a SUCCESS instead of failing. -/
theorem c3_xOrMore_cex :
    xOrMoreM 2 [litM ['x']] [] = .ok 0 ∧
    (reps (seqM [litM ['x']]) []).1 = 0 ∧ ¬ 2 ≤ (reps (seqM [litM ['x']]) []).1 := by
  refine ⟨by rfl, ?_, ?_⟩ <;> simp [reps]

/-- The one-literal sequence never throws, diverges, or matches zero
tokens: it either fails or consumes exactly one token. -/
theorem seqM_lit_total (s : List Char) :
    ∀ toks, seqM [litM s] toks ≠ .err ∧ seqM [litM s] toks ≠ .diverge ∧
      seqM [litM s] toks ≠ .ok 0 := by
  intro toks
  cases toks with
  | nil => simp [seqM, seqGo, litM]
  | cons t ts =>
    simp only [seqM, seqGo, litM, List.drop_zero]
    by_cases ht : t.text = s
    · simp [ht, seqGo]
    · simp [ht]

/-- Witness for C3 on a concrete haystack of two matching tokens. -/
theorem c3_xOrMore_amended_witness :
    xOrMoreM 2 [litM ['x']]
        [Token.mk ['x'] "w" "m" 1 1 [], Token.mk ['x'] "w" "m" 1 1 []]
      = (if (repsRest (seqM [litM ['x']])
              [Token.mk ['x'] "w" "m" 1 1 [], Token.mk ['x'] "w" "m" 1 1 []]).isEmpty ∨
            2 ≤ (reps (seqM [litM ['x']])
              [Token.mk ['x'] "w" "m" 1 1 [], Token.mk ['x'] "w" "m" 1 1 []]).1
          then .ok ((reps (seqM [litM ['x']])
              [Token.mk ['x'] "w" "m" 1 1 [], Token.mk ['x'] "w" "m" 1 1 []]).2)
          else .fail) :=
  c3_xOrMore_amended 2 [litM ['x']] (seqM_lit_total ['x'])
    [Token.mk ['x'] "w" "m" 1 1 [], Token.mk ['x'] "w" "m" 1 1 []]

/-!
C4: error behaviour of compiled patterns.
-/

/-- A literal matcher never throws. -/
theorem litM_ne_err (s : List Char) (toks : List Token) : litM s toks ≠ .err := by
  cases toks with
  | nil => simp [litM]
  | cons t ts =>
    simp only [litM]
    split <;> nofun

/-- The sequence loop never throws when none of its members does. -/
theorem seqGo_ne_err : ∀ (ms : List Matcher), (∀ m ∈ ms, ∀ s, m s ≠ .err) →
    ∀ (toks : List Token) (i : Nat), seqGo ms toks i ≠ .err := by
  intro ms
  induction ms with
  | nil => intro _ toks i; rw [seqGo]; nofun
  | cons m ms ih =>
    intro h toks i
    rw [seqGo]
    cases hm : m (toks.drop i) with
    | ok u => exact ih (fun m2 hm2 => h m2 (by simp [hm2])) toks (i + u)
    | fail => nofun
    | err => exact absurd hm (h m (by simp) _)
    | diverge => nofun

/-- The alternation loop never throws when none of its members does. -/
theorem orGo_ne_err : ∀ (ms : List Matcher), (∀ m ∈ ms, ∀ s, m s ≠ .err) →
    ∀ (toks : List Token), orGo ms toks ≠ .err := by
  intro ms
  induction ms with
  | nil => intro _ toks; rw [orGo]; nofun
  | cons m ms ih =>
    intro h toks
    rw [orGo]
    cases hm : m toks with
    | fail => exact ih (fun m2 hm2 => h m2 (by simp [hm2])) toks
    | ok u => nofun
    | err => exact absurd hm (h m (by simp) _)
    | diverge => nofun

/-- The negated-class loop never throws when none of its members does. -/
theorem norGo_ne_err : ∀ (ms : List Matcher), (∀ m ∈ ms, ∀ s, m s ≠ .err) →
    ∀ (toks : List Token), norGo ms toks ≠ .err := by
  intro ms
  induction ms with
  | nil => intro _ toks; rw [norGo]; nofun
  | cons m ms ih =>
    intro h toks
    rw [norGo]
    cases hm : m toks with
    | fail => exact ih (fun m2 hm2 => h m2 (by simp [hm2])) toks
    | ok u =>
      cases u with
      | zero => exact ih (fun m2 hm2 => h m2 (by simp [hm2])) toks
      | succ u => nofun
    | err => exact absurd hm (h m (by simp) _)
    | diverge => nofun

/-- The lookahead loop never throws when none of its members does. -/
theorem laGo_ne_err : ∀ (ms : List Matcher), (∀ m ∈ ms, ∀ s, m s ≠ .err) →
    ∀ (toks : List Token), laGo ms toks ≠ .err := by
  intro ms
  induction ms with
  | nil => intro _ toks; rw [laGo]; nofun
  | cons m ms ih =>
    intro h toks
    rw [laGo]
    cases hm : m toks with
    | fail => nofun
    | ok u => exact ih (fun m2 hm2 => h m2 (by simp [hm2])) toks
    | err => exact absurd hm (h m (by simp) _)
    | diverge => nofun

/-- The repetition loop never throws when the wrapped matcher does not. -/
theorem xGo_ne_err (x : Nat) (f : Matcher) (hf : ∀ s, f s ≠ .err) :
    ∀ (n : Nat) (toks : List Token) (i total : Nat), xGo x f n toks i total ≠ .err := by
  intro n
  induction n with
  | zero => intro toks i total; rw [xGo]; nofun
  | succ n ih =>
    intro toks i total
    cases toks with
    | nil => rw [xGo]; nofun
    | cons t ts =>
      rw [xGo]
      cases hm : f (t :: ts) with
      | fail =>
        dsimp only
        split <;> nofun
      | ok u =>
        cases u with
        | zero => nofun
        | succ u => exact ih (ts.drop u) (i + 1) (total + (u + 1))
      | err => exact absurd hm (hf _)
      | diverge => nofun

mutual
/-- A compiled pattern without attribute predicates never throws. -/
theorem compile_no_err : ∀ (p : Pat), noAttr p = true → ∀ (toks : List Token),
    compile p toks ≠ Res.err
  | .lit s, _, toks => by
    rw [compile]
    exact litM_ne_err s toks
  | .attr kvs, h, _ => by
    rw [noAttr] at h
    cases h
  | .seq ps, h, toks => by
    rw [compile]
    rw [noAttr] at h
    exact seqGo_ne_err _ (compileL_no_err ps h) toks 0
  | .orP ps, h, toks => by
    rw [compile]
    rw [noAttr] at h
    exact orGo_ne_err _ (compileL_no_err ps h) toks
  | .notP ps, h, toks => by
    rw [compile]
    rw [noAttr] at h
    simp only [notMat]
    cases hm : seqM (compileL ps) toks with
    | fail => nofun
    | ok u => nofun
    | err => exact absurd hm (seqGo_ne_err _ (compileL_no_err ps h) toks 0)
    | diverge => nofun
  | .nor ps, h, toks => by
    rw [compile]
    rw [noAttr] at h
    exact norGo_ne_err _ (compileL_no_err ps h) toks
  | .zeroOrOne ps, h, toks => by
    rw [compile]
    rw [noAttr] at h
    simp only [zeroOrOneM]
    cases hm : seqM (compileL ps) toks with
    | fail => nofun
    | ok u => nofun
    | err => exact absurd hm (seqGo_ne_err _ (compileL_no_err ps h) toks 0)
    | diverge => nofun
  | .xOrMore x ps, h, toks => by
    rw [compile]
    rw [noAttr] at h
    simp only [xOrMoreM]
    exact xGo_ne_err x _ (fun s => seqGo_ne_err _ (compileL_no_err ps h) s 0) _ toks 0 0
  | .lookAhead ps, h, toks => by
    rw [compile]
    rw [noAttr] at h
    exact laGo_ne_err _ (compileL_no_err ps h) toks
  | .endP, _, toks => by
    rw [compile]
    simp only [endM]
    split <;> nofun

/-- Every matcher compiled from a list of attribute-free patterns never
throws. -/
theorem compileL_no_err : ∀ (ps : List Pat), noAttrL ps = true →
    ∀ m ∈ compileL ps, ∀ s, m s ≠ Res.err
  | [], _, m, hm, s => by
    rw [compileL] at hm
    cases hm
  | p :: ps, h, m, hm, s => by
    rw [noAttrL, Bool.and_eq_true] at h
    rw [compileL] at hm
    rcases List.mem_cons.mp hm with rfl | hm2
    · exact compile_no_err p h.1 s
    · exact compileL_no_err ps h.2 m hm2 s
end

/-- C4 (amended): applying a compiled pattern never raises an exception —
non-matches are the normal negative result — PROVIDED the pattern contains no
attribute-predicate object; an attribute predicate evaluated on an empty
remaining slice throws (see the counterexample). -/
theorem c4_no_raise_amended (p : Pat) (h : noAttr p = true) (toks : List Token) :
    compile p toks ≠ Res.err :=
  compile_no_err p h toks

/-- Counterexample to C4 as stated: the sequence `['x', {type:'y'}]` applied
to the one-token slice `['x']` consumes the literal and then evaluates the
attribute predicate on the EMPTY remaining slice, where JS dereferences
`tokens[0][name]` on `undefined` and throws a TypeError. -/
theorem c4_no_raise_cex :
    compile (Pat.seq [Pat.lit ['x'], Pat.attr [AttrKV.ty "y"]])
      [Token.mk ['x'] "w" "m" 1 1 []] = Res.err := by
  simp only [compile, compileL]
  rfl

/-- Witness for C4 on a concrete attribute-free pattern and the empty
slice. -/
theorem c4_no_raise_amended_witness :
    compile (Pat.seq [Pat.lit ['x'], Pat.nor [Pat.lit ['y']]]) [] ≠ Res.err :=
  c4_no_raise_amended (Pat.seq [Pat.lit ['x'], Pat.nor [Pat.lit ['y']]])
    (by simp [noAttr, noAttrL]) []

/-!
C7: `matchAll` search completeness.
-/

/-- The match collected at offset `j`, if any. -/
def matchAt (p : Matcher) (hay : List Token) (j : Nat) : Option (Nat × List Token) :=
  match p (hay.drop j) with
  | .ok n => some (j, (hay.drop j).take n)
  | _ => none

/-- Unbounded `matchAll` loop characterization: for a pattern that never
throws or diverges, the loop starting at offset `i` with `rem` offsets to go
appends exactly the matches collected at `i, i+1, ...` in ascending order. -/
theorem maGo_none_spec (p : Matcher) (hp : ∀ s, p s ≠ .err ∧ p s ≠ .diverge)
    (hay : List Token) :
    ∀ (rem i : Nat) (acc : List (Nat × List Token)),
    maGo p hay none rem i acc
      = some (acc ++ (List.range' i rem).filterMap (matchAt p hay)) := by
  intro rem
  induction rem with
  | zero => intro i acc; simp [maGo, List.range']
  | succ rem ih =>
    intro i acc
    rw [maGo, if_pos (by rw [underLimit]), List.range'_succ, List.filterMap_cons]
    cases hr : p (hay.drop i) with
    | fail =>
      have hm : matchAt p hay i = none := by rw [matchAt, hr]
      rw [hm]
      dsimp only
      exact ih (i + 1) acc
    | ok n =>
      have hm : matchAt p hay i = some (i, (hay.drop i).take n) := by rw [matchAt, hr]
      rw [hm]
      dsimp only
      rw [ih (i + 1) (acc ++ [(i, (hay.drop i).take n)]), List.append_assoc,
        List.singleton_append]
    | err => exact absurd hr (hp _).1
    | diverge => exact absurd hr (hp _).2

/-- Bounded `matchAll` loop: with limit `l` and at most `l` matches collected
so far, the loop collects the first `l - acc.length` of the unbounded
matches. -/
theorem maGo_limit_spec (p : Matcher) (hp : ∀ s, p s ≠ .err ∧ p s ≠ .diverge)
    (hay : List Token) (l : Nat) :
    ∀ (rem i : Nat) (acc : List (Nat × List Token)), acc.length ≤ l →
    maGo p hay (some l) rem i acc
      = some (acc ++ ((List.range' i rem).filterMap (matchAt p hay)).take (l - acc.length)) := by
  intro rem
  induction rem with
  | zero => intro i acc hacc; simp [maGo, List.range']
  | succ rem ih =>
    intro i acc hacc
    rw [maGo]
    by_cases hu : acc.length < l
    · rw [if_pos (by rw [underLimit]; exact decide_eq_true hu)]
      rw [List.range'_succ, List.filterMap_cons]
      cases hr : p (hay.drop i) with
      | fail =>
        have hm : matchAt p hay i = none := by rw [matchAt, hr]
        rw [hm]
        dsimp only
        exact ih (i + 1) acc hacc
      | ok n =>
        have hm : matchAt p hay i = some (i, (hay.drop i).take n) := by rw [matchAt, hr]
        rw [hm]
        dsimp only
        rw [ih (i + 1) (acc ++ [(i, (hay.drop i).take n)]) (by simp; omega)]
        rw [List.append_assoc, List.singleton_append]
        congr 2
        have hsub : l - acc.length = (l - (acc.length + 1)) + 1 := by omega
        rw [List.length_append, List.length_singleton, hsub, List.take_succ_cons]
      | err => exact absurd hr (hp _).1
      | diverge => exact absurd hr (hp _).2
    · rw [if_neg (by rw [underLimit]; simpa using hu)]
      have hz : l - acc.length = 0 := by omega
      rw [hz, List.take_zero, List.append_nil]

/-- A literal matcher never throws and never diverges. -/
theorem litM_total (x : List Char) : ∀ s, litM x s ≠ .err ∧ litM x s ≠ .diverge := by
  intro s
  cases s with
  | nil => simp [litM]
  | cons t ts =>
    simp only [litM]
    split <;> simp

/-- A pointwise description turns `filterMap` into `filter` then `map`. -/
theorem filterMap_eq_map_filter {α β : Type} (f : α → Option β) (pr : α → Bool) (g : α → β) :
    ∀ (l : List α), (∀ a ∈ l, f a = if pr a then some (g a) else none) →
    l.filterMap f = (l.filter pr).map g := by
  intro l
  induction l with
  | nil => intro _; simp
  | cons a l ih =>
    intro h
    have ha := h a (by simp)
    rw [List.filterMap_cons, List.filter_cons]
    by_cases hp : pr a = true
    · rw [if_pos hp] at ha
      rw [ha, if_pos hp, List.map_cons, ih (fun b hb => h b (by simp [hb]))]
    · rw [if_neg hp] at ha
      rw [ha, if_neg hp, ih (fun b hb => h b (by simp [hb]))]

/-- The match collected by a literal pattern at a valid offset is decided by
that token's text. -/
theorem matchAt_lit (x : List Char) (hay : List Token) (i : Nat) (hi : i < hay.length) :
    matchAt (litM x) hay i
      = if ((hay[i]?).map Token.text = some x)
          then some (i, (hay.drop i).take 1) else none := by
  have hdrop : hay.drop i = hay[i] :: hay.drop (i + 1) := List.drop_eq_getElem_cons hi
  have hget : hay[i]? = some hay[i] := List.getElem?_eq_getElem hi
  rw [matchAt, hget]
  simp only [Option.map_some', Option.some.injEq]
  rw [hdrop]
  simp only [litM]
  by_cases ht : (hay[i]).text = x
  · rw [if_pos ht, if_pos ht]
  · rw [if_neg ht, if_neg ht]

/-- C7: `matchAll` tests the pattern at every starting offset `0..length-1`
in ascending order and collects each match tagged with its origin offset (for
any pattern that neither throws nor diverges); for a fixed single-token
literal it returns exactly the offsets whose token text equals the literal,
in ascending order, overlapping/adjacent matches included; and a limit
collects exactly the first `limit` of those matches. -/
theorem c7_findAll_every_offset :
    (∀ (p : Matcher) (hay : List Token),
      (∀ s, p s ≠ .err ∧ p s ≠ .diverge) →
      matchAll p hay none
        = some ((List.range' 0 hay.length).filterMap (matchAt p hay))) ∧
    (∀ (x : List Char) (hay : List Token),
      matchAll (litM x) hay none
        = some (((List.range' 0 hay.length).filter
            (fun i => decide ((hay[i]?).map Token.text = some x))).map
            (fun i => (i, (hay.drop i).take 1)))) ∧
    (∀ (x : List Char) (hay : List Token) (l : Nat),
      matchAll (litM x) hay (some l)
        = (matchAll (litM x) hay none).map (fun r => r.take l)) := by
  have h1 : ∀ (p : Matcher) (hay : List Token),
      (∀ s, p s ≠ .err ∧ p s ≠ .diverge) →
      matchAll p hay none
        = some ((List.range' 0 hay.length).filterMap (matchAt p hay)) := by
    intro p hay hp
    rw [matchAll, maGo_none_spec p hp hay hay.length 0 [], List.nil_append]
  refine ⟨h1, ?_, ?_⟩
  · intro x hay
    rw [h1 (litM x) hay (litM_total x)]
    congr 1
    apply filterMap_eq_map_filter
    intro i hi
    rw [List.mem_range'_1] at hi
    rw [matchAt_lit x hay i (by omega)]
    by_cases hx : (hay[i]?).map Token.text = some x
    · rw [if_pos hx, if_pos (decide_eq_true hx)]
    · rw [if_neg hx, if_neg (by simpa using hx)]
  · intro x hay l
    rw [matchAll, maGo_limit_spec (litM x) (litM_total x) hay l hay.length 0 [] (by simp),
      h1 (litM x) hay (litM_total x)]
    simp

/-- Witness for C7: the general characterization applied to a concrete
literal pattern and a two-token haystack, with the hypothesis discharged by
`litM_total`. -/
theorem c7_findAll_every_offset_witness :
    matchAll (litM ['x']) [Token.mk ['x'] "w" "m" 1 1 [], Token.mk ['y'] "w" "m" 1 2 []] none
      = some ((List.range' 0
          [Token.mk ['x'] "w" "m" 1 1 [], Token.mk ['y'] "w" "m" 1 2 []].length).filterMap
          (matchAt (litM ['x'])
            [Token.mk ['x'] "w" "m" 1 1 [], Token.mk ['y'] "w" "m" 1 2 []])) :=
  c7_findAll_every_offset.1 (litM ['x'])
    [Token.mk ['x'] "w" "m" 1 1 [], Token.mk ['y'] "w" "m" 1 2 []] (litM_total ['x'])

/-!
C2: the nesting-depth counters of `lex-htmljs.js`.

`braceDepth` and `templateDepth` are module-level `let` bindings in
`lex-htmljs.js` (lines 8-9), closed over by the `template`, `brace1` and
`brace2` rule functions — they are shared across every `lex` call that uses
the grammar, not per-invocation state.  The embedding threads them as the
state pair `(braceDepth, templateDepth) : Int × Int`, and a second top-level
call starts from whatever state the first call left behind.

`lexHtmlJsJs` embeds the subset of the `js` mode exercised by the inputs
below, in source order: the `template`, `brace1` and `brace2` function rules
(translated line by line from `lex-htmljs.js` lines 77-97) and the
`identifier` regex (modelled for ASCII).  The omitted `js` rules
(`whitespace`, `ln`, `semicolon`, `comment`, `value`, `hex`, `number`,
`regex`, `operator`, `keyword`, `string`) match none of the characters
of the inputs used here, so their omission cannot change which rule wins.
The `template` mode's own rules are never consulted because every pushed
`template` mode below starts at the end of the input.
-/

/-- `lexHtmlJs.js.template` (lines 77-83): on a backtick, increment
`templateDepth`, zero `braceDepth`, and descend into `template` mode. -/
def templateRule : GRule (Int × Int) := .fn fun st cur _ _ =>
  if cur.head? = some backtickCh then (some ([backtickCh], .mode "template"), (0, st.2 + 1))
  else (none, st)

/-- `lexHtmlJs.js.brace1` (lines 84-89): on `{`, increment `braceDepth`. -/
def brace1Rule : GRule (Int × Int) := .fn fun st cur _ _ =>
  if cur.head? = some braceOpenCh then (some ([braceOpenCh], .undef), (st.1 + 1, st.2))
  else (none, st)

/-- `lexHtmlJs.js.brace2` (lines 90-97): on `}`, pop out of js mode when
`braceDepth` is zero and `templateDepth` truthy, else decrement `braceDepth`
and emit a plain token. -/
def brace2Rule : GRule (Int × Int) := .fn fun st cur _ _ =>
  if cur.head? = some braceCloseCh then
    (if st.1 = 0 ∧ st.2 ≠ 0 then (some ([braceCloseCh], .pop), st)
     else (some ([braceCloseCh], .undef), (st.1 - 1, st.2)))
  else (none, st)

/-- ASCII model of the `identifier` regex of `lexHtmlJs.js` (line 138). -/
def identMatch (cur : List Char) : Option (List Char) :=
  match cur with
  | c :: rest =>
    if c = '_' ∨ c = '$' ∨ c.isAlpha then
      some (c :: rest.takeWhile (fun d => d = '_' ∨ d = '$' ∨ d.isAlpha ∨ d.isDigit))
    else none
  | [] => none

/-- The embedded subset of the html/js grammar's `js` mode. -/
def lexHtmlJsJs : Grammar (Int × Int) :=
  [("js", [("template", [templateRule]), ("brace1", [brace1Rule]), ("brace2", [brace2Rule]),
           ("identifier", [.regex identMatch])]),
   ("template", [])]

/-- C2 is violated by the code (code bug): lexing the single backtick leaves
`templateDepth = 1` in the module state; a following, INDEPENDENT call on
`}x` then sees `braceDepth = 0 && templateDepth` truthy, treats `}` as a pop
out of the top-level mode and returns a single token WITHOUT consuming `x`,
whereas the same call from a fresh state emits both the `}` and the `x`
tokens.  The token sequence returned for one input therefore depends on which
other inputs were lexed beforehand. -/
theorem c2_shared_state_bug :
    lexTop lexHtmlJsJs [backtickCh] "" (0, 0)
      = some ((0, 1), .ok [Token.mk [backtickCh] "template" "js" 1 1
          [Token.mk [backtickCh] "template" "template" 1 1 []]]) ∧
    lexTop lexHtmlJsJs [braceCloseCh, 'x'] "" (0, 1)
      = some ((0, 1), .ok [Token.mk [braceCloseCh] "brace2" "js" 1 1 []]) ∧
    lexTop lexHtmlJsJs [braceCloseCh, 'x'] "" (0, 0)
      = some ((-1, 0), .ok [Token.mk [braceCloseCh] "brace2" "js" 1 1 [],
          Token.mk ['x'] "identifier" "js" 1 2 []]) ∧
    concatText [Token.mk [braceCloseCh] "brace2" "js" 1 1 []] ≠ [braceCloseCh, 'x'] := by
  refine ⟨by rfl, by rfl, by rfl, by decide⟩
